import Mathlib

/-!
# Verification of the smFISH probe-design core (`src/probedesign/core.py`)

Shallow embedding of the probe-design algorithms:

* costs ("badness" values) are IEEE floats in the source; they are embedded
  as `Option ℚ` where `none` plays the role of `float('inf')` (no NaN can
  arise on the executed paths: the only arithmetic is `(old*k + new)/(k+1)`
  with `k ≥ 1`, and `(g - target)^2`, neither of which produces NaN);
* the dynamic-programming tables (Python lists of lists, mutated in place)
  are embedded as lists of rows threaded functionally through folds that
  mirror the source loops statement by statement;
* Python list indexing (which admits negative indices and raises on
  out-of-range access) is embedded by `pyGet`; an uncaught exception is
  embedded as an overall `none` result.
-/

/-- A cost value: `some q` is a finite float, `none` is `float('inf')`. -/
abbrev Cost := Option ℚ

/-- Strict `<` on costs, with `none` as `+∞` (matches IEEE comparisons on
the values that occur: `inf < inf` is false, any finite `< inf` is true). -/
def costLt : Cost → Cost → Bool
  | some a, some b => decide (a < b)
  | some _, none => true
  | none, _ => false

/-- Non-strict `≤` on costs, with `none` as `+∞`. -/
def costLe : Cost → Cost → Bool
  | _, none => true
  | none, some _ => false
  | some a, some b => decide (a ≤ b)

/-- `_calc_score(old_score, k, new_badness) = (old_score*k + new_badness)/(k+1)`
(core.py lines 171–185).  Infinite inputs give an infinite result, matching
float arithmetic for the call sites (which all have `k ≥ 1`). -/
def calc_score : Cost → ℕ → Cost → Cost
  | some o, k, some b => some ((o * (k : ℚ) + b) / ((k : ℚ) + 1))
  | _, _, _ => none

/-- The validity-threshold test `score >= 1_000_000` (core.py lines 261, 356);
`+∞ ≥ 10^6` is true. -/
def scoreTooBig : Cost → Bool
  | none => true
  | some a => decide ((1000000 : ℚ) ≤ a)

/-- Python list indexing `l[i]`: negative indices count from the end,
out-of-range access raises (embedded as `none`). -/
def pyGet {α : Type _} (l : List α) (i : ℤ) : Option α :=
  if 0 ≤ i then l.get? i.toNat
  else if 0 ≤ i + l.length then l.get? (i + l.length).toNat
  else none

/-! ## Fixed-length DP: `find_best_probes` (core.py lines 188–274) -/

/-- One cell of the parallel tables `bmsf_pos` / `bmsf_sco`. -/
structure CellF where
  pos : Option ℕ
  sco : Cost
  deriving DecidableEq

/-- The initialization of row 0: `bmsf_pos[0][0] = 0; bmsf_sco[0][0] = badness[0]`
(lines 216–221); all other cells are `(None, inf)`. -/
def initRowF (bad : List Cost) (n : ℕ) : List CellF :=
  (List.range n).map (fun k => if k = 0 then ⟨some 0, bad.getD 0 none⟩ else ⟨none, none⟩)

/-- The candidate score `potential_score` (lines 232–243), computed against
the current state `tbl` of the Python table: `badness[x]` for slot 0,
otherwise the running mean extended from the cell at `(x - gap, k - 1)`
when `x - gap ≥ 0` and that cell has a backpointer. -/
def potRawF (bad : List Cost) (gap : ℕ) (tbl : List (List CellF)) (x k : ℕ) : Cost :=
  if k = 0 then bad.getD x none
  else if gap ≤ x then
    if ((tbl.getD (x - gap) []).getD (k - 1) ⟨none, none⟩).pos = none then none
    else calc_score ((tbl.getD (x - gap) []).getD (k - 1) ⟨none, none⟩).sco k (bad.getD x none)
  else none

/-- The body of the inner `for k in range(n_probes)` loop at position `x ≥ 1`
(lines 231–247).  `prevRows` holds the finalized rows `0..x-1`; the row being
built is threaded, and lookups go through `prevRows ++ [row]`, which is the
current state of the Python table. -/
def stepSlotF (bad : List Cost) (gap : ℕ) (prevRows : List (List CellF)) (x : ℕ)
    (row : List CellF) (k : ℕ) : List CellF :=
  let potential := potRawF bad gap (prevRows ++ [row]) x k
  if costLt potential (row.getD k ⟨none, none⟩).sco then row.set k ⟨some x, potential⟩
  else row

/-- Row `x ≥ 1` of the DP tables: copy row `x-1` (lines 226–228), then run
the placement loop over all slots (lines 231–247). -/
def rowF (bad : List Cost) (gap n : ℕ) (prevRows : List (List CellF)) (x : ℕ) : List CellF :=
  (List.range n).foldl (stepSlotF bad gap prevRows x) (prevRows.getD (x - 1) [])

/-- The table `bmsf_pos`/`bmsf_sco` after processing positions `0..x`. -/
def tableF (bad : List Cost) (gap n : ℕ) : ℕ → List (List CellF)
  | 0 => [initRowF bad n]
  | x + 1 => tableF bad gap n x ++ [rowF bad gap n (tableF bad gap n x) (x + 1)]

/-- The backtracking loop `for _ in range(k + 1)` (lines 265–269): read the
backpointer, record it, jump back by `gap`, decrement the slot.  A `None`
backpointer would raise a TypeError on `pos - probe_spacer_len` and an
out-of-range row index would raise an IndexError; both are embedded as
`none`. -/
def btF (table : List (List CellF)) (gap : ℕ) : ℕ → ℤ → ℕ → Option (List ℕ)
  | 0, _, _ => some []
  | s + 1, x, ck =>
    match pyGet table x with
    | none => none
    | some row =>
      match (row.getD ck ⟨none, none⟩).pos with
      | none => none
      | some p => (btF table gap s ((p : ℤ) - gap) (ck - 1)).map (fun ps => p :: ps)

/-- One iteration of the results loop (lines 251–272): skip the slot if it
has no backpointer or its score fails the threshold, otherwise backtrack
and append `(score, reversed positions)`. -/
def resStepF (table : List (List CellF)) (gap goodlen : ℕ)
    (acc : Option (List (Cost × List ℕ))) (k : ℕ) : Option (List (Cost × List ℕ)) :=
  acc.bind (fun rs =>
    match pyGet table ((goodlen : ℤ) - 1) with
    | none => none
    | some lastRow =>
      match (lastRow.getD k ⟨none, none⟩).pos with
      | none => some rs
      | some _ =>
        let score := (lastRow.getD k ⟨none, none⟩).sco
        if scoreTooBig score then some rs
        else (btF table gap (k + 1) ((goodlen : ℤ) - 1) k).map
               (fun ps => rs ++ [(score, ps.reverse)]))

/-- The results loop (lines 250–272). -/
def resultsF (table : List (List CellF)) (gap goodlen n : ℕ) :
    Option (List (Cost × List ℕ)) :=
  (List.range n).foldl (resStepF table gap goodlen) (some [])

/-- `find_best_probes(badness, seq_len, oligo_len, spacer_len, n_probes)`
(core.py lines 188–274).  With an empty badness table or `n_probes = 0` the
initialization `bmsf_pos[0][0] = 0` raises an IndexError, embedded as `none`;
otherwise the result is the list of `(score, positions)` pairs. -/
def find_best_probes (bad : List Cost) (_seqLen oligoLen spacerLen nProbes : ℕ) :
    Option (List (Cost × List ℕ)) :=
  let goodlen := bad.length
  let gap := oligoLen + spacerLen
  if goodlen = 0 ∨ nProbes = 0 then none
  else resultsF (tableF bad gap nProbes (goodlen - 1)) gap goodlen nProbes

/-- The solution selector of `design_probes` (core.py lines 579–594): an
empty solution list yields the empty design; otherwise the solution with
the most probes — the last element — is materialized. -/
def select_solution {α : Type _} (solutions : List α) : Option α :=
  solutions.getLast?

/-! ## Mixed-length DP: `find_best_probes_mixed` (core.py lines 277–372) -/

/-- One cell of the parallel tables `dp` / `tracker`: a score and the
`(start, length)` of the last probe in the best solution. -/
structure CellM where
  sco : Cost
  trk : Option (ℕ × ℕ)
  deriving DecidableEq

/-- Step 1 of the mixed DP (lines 316–320): propagate from `e-1` to the
fresh row for `e` (which is all `(inf, None)`), copying a cell exactly when
its score beats `inf`, i.e. is finite. -/
def carryRowM (prev : List CellM) : List CellM :=
  prev.map (fun c => if costLt c.sco none then c else ⟨none, none⟩)

/-- The inner `for k in range(n_probes)` loop of step 2 (lines 332–343) for
a fixed candidate `(x, L)` with finite badness `b`.  Lookups of
`tracker[prev_end][k-1]` / `dp[prev_end][k-1]` go through
`prevRows ++ [row]`, the current state of the Python table
(`prev_end ≤ e` always).  `continue` is embedded as an infinite candidate
score, which never wins a strict comparison.  `scoreRawM` is the candidate
score of lines 333–339 against the current table state `tbl`. -/
def scoreRawM (spacer : ℕ) (tbl : List (List CellM)) (x k : ℕ) (b : ℚ) : Cost :=
  if k = 0 then some b
  else if x < spacer + 1 then none
  else
    if ((tbl.getD (x - spacer - 1) []).getD (k - 1) ⟨none, none⟩).trk = none then none
    else calc_score ((tbl.getD (x - spacer - 1) []).getD (k - 1) ⟨none, none⟩).sco k (some b)

def stepKM (spacer : ℕ) (prevRows : List (List CellM)) (x L : ℕ) (b : ℚ)
    (row : List CellM) (k : ℕ) : List CellM :=
  let score := scoreRawM spacer (prevRows ++ [row]) x k b
  if costLt score (row.getD k ⟨none, none⟩).sco then row.set k ⟨score, some (x, L)⟩
  else row

/-- The `for L_idx in range(n_lengths)` loop of step 2 (lines 323–343):
derive the start `x = e - L + 1`, skip out-of-range starts and infinite
badness, then try every slot. -/
def stepLM (bad2d : List (List Cost)) (minLen spacer nProbes : ℕ)
    (prevRows : List (List CellM)) (e : ℕ) (row : List CellM) (Lidx : ℕ) : List CellM :=
  let L := minLen + Lidx
  if e + 1 < L then row
  else
    let x := e + 1 - L
    if bad2d.length ≤ x then row
    else
      match (bad2d.getD x []).getD Lidx none with
      | none => row
      | some b => (List.range nProbes).foldl (stepKM spacer prevRows x L b) row

/-- The row of the mixed DP for end position `e` (lines 314–343). -/
def rowM (bad2d : List (List Cost)) (minLen nLengths spacer nProbes : ℕ)
    (prevRows : List (List CellM)) (e : ℕ) : List CellM :=
  let carried := if 0 < e then carryRowM (prevRows.getD (e - 1) [])
                 else List.replicate nProbes ⟨none, none⟩
  (List.range nLengths).foldl (stepLM bad2d minLen spacer nProbes prevRows e) carried

/-- The mixed DP table after processing end positions `0..e-1`. -/
def tableM (bad2d : List (List Cost)) (minLen nLengths spacer nProbes : ℕ) :
    ℕ → List (List CellM)
  | 0 => []
  | e + 1 => tableM bad2d minLen nLengths spacer nProbes e ++
      [rowM bad2d minLen nLengths spacer nProbes
        (tableM bad2d minLen nLengths spacer nProbes e) e]

/-- The mixed backtracking loop (lines 361–367): a `None` tracker entry
breaks out of the loop (truncating the collected list); an out-of-range row
index would raise, embedded as overall `none`. -/
def btM (table : List (List CellM)) (spacer : ℕ) : ℕ → ℤ → ℕ → Option (List (ℕ × ℕ))
  | 0, _, _ => some []
  | s + 1, e, ck =>
    match pyGet table e with
    | none => none
    | some row =>
      match (row.getD ck ⟨none, none⟩).trk with
      | none => some []
      | some (x, L) =>
        (btM table spacer s ((x : ℤ) - spacer - 1) (ck - 1)).map (fun ps => (x, L) :: ps)

/-- One iteration of the mixed results loop (lines 347–370). -/
def resStepM (table : List (List CellM)) (spacer seqLen : ℕ)
    (acc : Option (List (Cost × List (ℕ × ℕ)))) (k : ℕ) :
    Option (List (Cost × List (ℕ × ℕ))) :=
  acc.bind (fun rs =>
    match pyGet table ((seqLen : ℤ) - 1) with
    | none => none
    | some lastRow =>
      match (lastRow.getD k ⟨none, none⟩).trk with
      | none => some rs
      | some _ =>
        let score := (lastRow.getD k ⟨none, none⟩).sco
        if scoreTooBig score then some rs
        else (btM table spacer (k + 1) ((seqLen : ℤ) - 1) k).map
               (fun ps => rs ++ [(score, ps.reverse)]))

/-- The mixed results loop (lines 346–370). -/
def resultsM (table : List (List CellM)) (spacer seqLen n : ℕ) :
    Option (List (Cost × List (ℕ × ℕ))) :=
  (List.range n).foldl (resStepM table spacer seqLen) (some [])

/-- `find_best_probes_mixed(badness_2d, seq_len, min_len, max_len, spacer_len,
n_probes)` (core.py lines 277–372).  `n_lengths = max_len - min_len + 1`,
clamped to `0` exactly when the Python `range` is empty. -/
def find_best_probes_mixed (bad2d : List (List Cost))
    (seqLen minLen maxLen spacer nProbes : ℕ) : Option (List (Cost × List (ℕ × ℕ))) :=
  let nLengths := maxLen + 1 - minLen
  resultsM (tableM bad2d minLen nLengths spacer nProbes seqLen) spacer seqLen nProbes

/-! ## Badness scoring: `calculate_badness` / `calculate_badness_mixed`
(core.py lines 52–168)

The thermodynamic oracle `gibbs_rna_dna` lives in the (external)
`thermodynamics` module; per the spec it is an injected collaborator, so the
scorer is parameterized by an oracle `List Char → Except Unit ℚ` whose
`error` value embeds the `KeyError` raised on an unsupported adjacent pair. -/

/-- Modelled from the spec: `has_invalid_chars` of the missing `sequence`
module — a window is invalid when it contains any character outside the
valid nucleotide alphabet `a/c/g/t` (junction markers, `n`, mask sentinels). -/
def has_invalid_chars (s : List Char) : Bool :=
  s.any (fun c => !(c == 'a' || c == 'c' || c == 'g' || c == 't'))

/-- `calculate_badness(seq, oligo_len, target_gibbs, allowable_range)`
(core.py lines 52–101): one cost per window start, `sorted(allowable_range)`
canonicalizing the endpoints; invalid characters, an oracle `KeyError` and an
out-of-range ΔG all give `inf`; otherwise `(gibbs - target)^2`. -/
def calculate_badness (gibbs : List Char → Except Unit ℚ) (seq : List Char)
    (oligo_len : ℕ) (target_gibbs : ℚ) (allowable_range : ℚ × ℚ) : List Cost :=
  let min_gibbs := min allowable_range.1 allowable_range.2
  let max_gibbs := max allowable_range.1 allowable_range.2
  (List.range (seq.length + 1 - oligo_len)).map (fun i =>
    let oligo := (seq.drop i).take oligo_len
    if has_invalid_chars oligo then none
    else
      match gibbs oligo with
      | .error _ => none
      | .ok g =>
        if g < min_gibbs ∨ max_gibbs < g then none
        else some ((g - target_gibbs) ^ 2))

/-- `calculate_badness_mixed(seq, min_len, max_len, target_gibbs,
allowable_range)` (core.py lines 104–168): a row per start position, an
entry per length index, with windows running past the sequence end forced
to `inf`. -/
def calculate_badness_mixed (gibbs : List Char → Except Unit ℚ) (seq : List Char)
    (min_len max_len : ℕ) (target_gibbs : ℚ) (allowable_range : ℚ × ℚ) :
    List (List Cost) :=
  let min_gibbs := min allowable_range.1 allowable_range.2
  let max_gibbs := max allowable_range.1 allowable_range.2
  let n_lengths := max_len + 1 - min_len
  (List.range (seq.length + 1 - min_len)).map (fun i =>
    (List.range n_lengths).map (fun Lidx =>
      let L := min_len + Lidx
      if seq.length < i + L then none
      else
        let oligo := (seq.drop i).take L
        if has_invalid_chars oligo then none
        else
          match gibbs oligo with
          | .error _ => none
          | .ok g =>
            if g < min_gibbs ∨ max_gibbs < g then none
            else some ((g - target_gibbs) ^ 2)))

/-! ## Mask application inside `design_probes` (core.py lines 542–572)

The per-window mask table `mask_badness` comes from the external `masking`
module; the application pass itself is in `design_probes` and only ever
overwrites an entry with `inf`. -/

/-- The fixed-length mask pass (lines 567–572):
`for i in range(len(badness)): if mask_badness[i] == inf: badness[i] = inf`. -/
def apply_mask_badness (badness mask_badness : List Cost) : List Cost :=
  (List.range badness.length).map (fun i =>
    if mask_badness.getD i (some 0) = none then none else badness.getD i none)

/-- The mixed-length mask pass (lines 543–549): entry `(i, L_idx)` for
`L_idx < n_lengths` is overwritten with `inf` when `i` is in range of the
mask table and the mask table marks it `inf`. -/
def apply_mask_badness_mixed (bad2d mask2d : List (List Cost)) (nLengths : ℕ) :
    List (List Cost) :=
  (List.range bad2d.length).map (fun i =>
    let row := bad2d.getD i []
    (List.range row.length).map (fun Lidx =>
      if Lidx < nLengths ∧ i < mask2d.length ∧ (mask2d.getD i []).getD Lidx (some 0) = none
      then none else row.getD Lidx none))

/-! ## Derived notions used to state the claims -/

/-- Sum of a list of costs (`inf` absorbing). -/
def costSum : List Cost → Cost :=
  List.foldr (fun a b =>
    match a, b with
    | some x, some y => some (x + y)
    | _, _ => none) (some 0)

/-- Arithmetic mean of a list of costs (`inf` absorbing). -/
def costMean (l : List Cost) : Cost :=
  match costSum l with
  | none => none
  | some s => some (s / (l.length : ℚ))

/-! ## Basic lemmas about list access and costs -/

theorem getD_append_left' {α : Type _} {l₁ l₂ : List α} {n : ℕ} (d : α)
    (h : n < l₁.length) : (l₁ ++ l₂).getD n d = l₁.getD n d := by
  simp [List.getD_eq_getElem?_getD, List.getElem?_append_left h]

theorem getD_concat_self {α : Type _} {l : List α} {a : α} (d : α) :
    (l ++ [a]).getD l.length d = a := by
  simp [List.getD_eq_getElem?_getD, List.getElem?_concat_length]

theorem getD_set_self' {α : Type _} {l : List α} {i : ℕ} {a : α} (d : α)
    (h : i < l.length) : (l.set i a).getD i d = a := by
  simp [List.getD_eq_getElem?_getD, List.getElem?_set_self h]

theorem getD_set_ne' {α : Type _} {l : List α} {i j : ℕ} {a : α} (d : α)
    (h : i ≠ j) : (l.set i a).getD j d = l.getD j d := by
  simp [List.getD_eq_getElem?_getD, List.getElem?_set_ne h]

theorem getD_map_range {α : Type _} {f : ℕ → α} {n i : ℕ} (d : α)
    (h : i < n) : ((List.range n).map f).getD i d = f i := by
  simp [List.getD_eq_getElem?_getD, List.getElem?_map, List.getElem?_range h]

theorem pyGet_natCast {α : Type _} (l : List α) (n : ℕ) :
    pyGet l (n : ℤ) = l[n]? := by
  simp [pyGet, List.get?_eq_getElem?]

theorem pyGet_lt {α : Type _} (l : List α) (n : ℕ) (h : n < l.length) (d : α) :
    pyGet l (n : ℤ) = some (l.getD n d) := by
  rw [pyGet_natCast, List.getD_eq_getElem?_getD]
  cases hg : l[n]? with
  | none => rw [List.getElem?_eq_none_iff] at hg; omega
  | some a => rfl

theorem costLt_some_of_true {a b : Cost} (h : costLt a b = true) : ∃ q, a = some q := by
  cases a with
  | none => simp [costLt] at h
  | some q => exact ⟨q, rfl⟩

theorem costLt_none_right {q : ℚ} : costLt (some q) none = true := rfl

theorem scoreTooBig_eq_false {c : Cost} (h : scoreTooBig c = false) :
    ∃ s, c = some s ∧ s < 1000000 ∧ costLt c (some 1000000) = true := by
  cases c with
  | none => simp [scoreTooBig] at h
  | some s =>
    simp only [scoreTooBig, decide_eq_false_iff_not, not_le] at h
    exact ⟨s, rfl, h, by simp [costLt, h]⟩

theorem calc_score_eq_some {a b : Cost} {k : ℕ} {s : ℚ}
    (h : calc_score a k b = some s) :
    ∃ a' b', a = some a' ∧ b = some b' ∧ s = (a' * (k : ℚ) + b') / ((k : ℚ) + 1) := by
  cases a with
  | none => simp [calc_score] at h
  | some a' =>
    cases b with
    | none => simp [calc_score] at h
    | some b' =>
      refine ⟨a', b', rfl, rfl, ?_⟩
      simpa [calc_score, eq_comm] using h

theorem costSum_map_some (bs : List ℚ) : costSum (bs.map some) = some bs.sum := by
  induction bs with
  | nil => rfl
  | cons b bs ih => simp [costSum, List.foldr] at ih ⊢; rw [ih]

/-! ## Structure of the fixed-length DP table -/

/-- Row `x` of the fixed DP table. -/
def rowAtF (bad : List Cost) (gap n x : ℕ) : List CellF :=
  (tableF bad gap n x).getD x []

/-- Final value of the fixed DP cell at position `x`, slot `k`. -/
def cellF (bad : List Cost) (gap n x k : ℕ) : CellF :=
  (rowAtF bad gap n x).getD k ⟨none, none⟩

theorem tableF_length (bad : List Cost) (gap n x : ℕ) :
    (tableF bad gap n x).length = x + 1 := by
  induction x with
  | zero => rfl
  | succ x ih => simp [tableF, ih]

theorem tableF_getD_of_le (bad : List Cost) (gap n : ℕ) {y x : ℕ} (h : y ≤ x) :
    (tableF bad gap n x).getD y [] = rowAtF bad gap n y := by
  induction x with
  | zero =>
    have : y = 0 := Nat.le_zero.mp h
    subst this; rfl
  | succ x ih =>
    rcases Nat.lt_or_ge y (x + 1) with hy | hy
    · rw [tableF, getD_append_left' _ (by rw [tableF_length]; omega)]
      exact ih (by omega)
    · have : y = x + 1 := by omega
      subst this; rfl

theorem getD_concat_eq {α : Type _} {l : List α} {a : α} {m : ℕ} (d : α)
    (h : l.length = m) : (l ++ [a]).getD m d = a := by
  subst h; exact getD_concat_self d

theorem rowAtF_succ (bad : List Cost) (gap n x : ℕ) :
    rowAtF bad gap n (x + 1) =
      (List.range n).foldl (stepSlotF bad gap (tableF bad gap n x) (x + 1))
        (rowAtF bad gap n x) := by
  show (tableF bad gap n x ++ [rowF bad gap n (tableF bad gap n x) (x + 1)]).getD (x + 1) [] = _
  rw [getD_concat_eq [] (tableF_length bad gap n x)]
  rfl

theorem length_stepSlotF (bad : List Cost) (gap : ℕ) (prev : List (List CellF))
    (x : ℕ) (row : List CellF) (k : ℕ) :
    (stepSlotF bad gap prev x row k).length = row.length := by
  unfold stepSlotF
  dsimp only
  split <;> simp [List.length_set]

theorem length_foldl_stepSlotF (bad : List Cost) (gap : ℕ) (prev : List (List CellF))
    (x : ℕ) (l : List ℕ) (r : List CellF) :
    (l.foldl (stepSlotF bad gap prev x) r).length = r.length := by
  induction l generalizing r with
  | nil => rfl
  | cons a l ih => rw [List.foldl_cons, ih, length_stepSlotF]

theorem rowAtF_length (bad : List Cost) (gap n x : ℕ) :
    (rowAtF bad gap n x).length = n := by
  induction x with
  | zero =>
    show (initRowF bad n).length = n
    simp [initRowF]
  | succ x ih => rw [rowAtF_succ, length_foldl_stepSlotF, ih]


/-! ## The cell recurrence of the fixed DP

Each slot of a row is written at most once, by its own iteration of the
placement loop; this lets the in-place row update be described cell by
cell. -/

/-- The row state after the first `m` iterations of the placement loop. -/
def partF (bad : List Cost) (gap : ℕ) (prev : List (List CellF)) (x : ℕ)
    (r0 : List CellF) (m : ℕ) : List CellF :=
  (List.range m).foldl (stepSlotF bad gap prev x) r0

theorem partF_succ (bad : List Cost) (gap : ℕ) (prev : List (List CellF)) (x : ℕ)
    (r0 : List CellF) (m : ℕ) :
    partF bad gap prev x r0 (m + 1) =
      stepSlotF bad gap prev x (partF bad gap prev x r0 m) m := by
  unfold partF
  rw [List.range_succ, List.foldl_append]
  rfl

theorem stepSlotF_getD_ne (bad : List Cost) (gap : ℕ) (prev : List (List CellF))
    (x : ℕ) (row : List CellF) {j k : ℕ} (d : CellF) (h : j ≠ k) :
    (stepSlotF bad gap prev x row k).getD j d = row.getD j d := by
  unfold stepSlotF
  dsimp only
  split
  · exact getD_set_ne' d (fun hkj => h hkj.symm)
  · rfl

theorem partF_getD_of_le (bad : List Cost) (gap : ℕ) (prev : List (List CellF))
    (x : ℕ) (r0 : List CellF) {m j : ℕ} (d : CellF) (h : m ≤ j) :
    (partF bad gap prev x r0 m).getD j d = r0.getD j d := by
  induction m with
  | zero => rfl
  | succ m ih =>
    rw [partF_succ, stepSlotF_getD_ne bad gap prev x _ d (by omega)]
    exact ih (by omega)

theorem partF_getD_stable (bad : List Cost) (gap : ℕ) (prev : List (List CellF))
    (x : ℕ) (r0 : List CellF) {m m' j : ℕ} (d : CellF) (hj : j < m) (h : m ≤ m') :
    (partF bad gap prev x r0 m').getD j d = (partF bad gap prev x r0 m).getD j d := by
  induction m' with
  | zero => omega
  | succ m' ih =>
    rcases Nat.lt_or_ge m (m' + 1) with hm | hm
    · rw [partF_succ, stepSlotF_getD_ne bad gap prev x _ d (by omega)]
      exact ih (by omega)
    · have : m = m' + 1 := by omega
      subst this; rfl

theorem length_partF (bad : List Cost) (gap : ℕ) (prev : List (List CellF))
    (x : ℕ) (r0 : List CellF) (m : ℕ) :
    (partF bad gap prev x r0 m).length = r0.length :=
  length_foldl_stepSlotF bad gap prev x _ r0

theorem stepSlotF_getD_self (bad : List Cost) (gap : ℕ) (prev : List (List CellF))
    (x : ℕ) (row : List CellF) {k : ℕ} (hk : k < row.length) :
    (stepSlotF bad gap prev x row k).getD k ⟨none, none⟩ =
      if costLt (potRawF bad gap (prev ++ [row]) x k) (row.getD k ⟨none, none⟩).sco
      then ⟨some x, potRawF bad gap (prev ++ [row]) x k⟩
      else row.getD k ⟨none, none⟩ := by
  unfold stepSlotF
  dsimp only
  split
  · exact getD_set_self' _ hk
  · rfl

/-- The candidate score for placing a probe at `x + 1`, slot `k`, expressed
against the finalized cells (each slot of a row is final as soon as its own
loop iteration has run, so even the `gap = 0` self-row lookup reads a final
value). -/
def potentialF (bad : List Cost) (gap n x k : ℕ) : Cost :=
  if k = 0 then bad.getD (x + 1) none
  else if gap ≤ x + 1 then
    if (cellF bad gap n (x + 1 - gap) (k - 1)).pos = none then none
    else calc_score (cellF bad gap n (x + 1 - gap) (k - 1)).sco k (bad.getD (x + 1) none)
  else none

theorem cellF_succ (bad : List Cost) (gap n : ℕ) {x k : ℕ} (hk : k < n) :
    cellF bad gap n (x + 1) k =
      if costLt (potentialF bad gap n x k) (cellF bad gap n x k).sco
      then ⟨some (x + 1), potentialF bad gap n x k⟩
      else cellF bad gap n x k := by
  have hcur : (partF bad gap (tableF bad gap n x) (x + 1) (rowAtF bad gap n x) k).getD k
      ⟨none, none⟩ = cellF bad gap n x k :=
    partF_getD_of_le bad gap _ _ _ _ (Nat.le_refl k)
  have hstable : cellF bad gap n (x + 1) k =
      (stepSlotF bad gap (tableF bad gap n x) (x + 1)
        (partF bad gap (tableF bad gap n x) (x + 1) (rowAtF bad gap n x) k) k).getD k
        ⟨none, none⟩ := by
    unfold cellF
    rw [rowAtF_succ]
    show (partF bad gap (tableF bad gap n x) (x + 1) (rowAtF bad gap n x) n).getD k _ = _
    rw [partF_getD_stable bad gap _ _ _ ⟨none, none⟩ (Nat.lt_succ_self k) hk, partF_succ]
  have hpot : potRawF bad gap
      (tableF bad gap n x ++
        [partF bad gap (tableF bad gap n x) (x + 1) (rowAtF bad gap n x) k]) (x + 1) k =
      potentialF bad gap n x k := by
    rcases Nat.eq_zero_or_pos k with hk0 | hkpos
    · subst hk0; rfl
    · have hk0' : ¬ (k = 0) := by omega
      have hpc : ((tableF bad gap n x ++
          [partF bad gap (tableF bad gap n x) (x + 1) (rowAtF bad gap n x) k]).getD
          (x + 1 - gap) []).getD (k - 1) ⟨none, none⟩ =
          cellF bad gap n (x + 1 - gap) (k - 1) := by
        rcases Nat.lt_or_ge (x + 1 - gap) (x + 1) with hlt | hge
        · rw [getD_append_left' [] (by rw [tableF_length]; omega),
            tableF_getD_of_le bad gap n (by omega)]
          rfl
        · have hxg : x + 1 - gap = x + 1 := by omega
          rw [hxg, getD_concat_eq [] (tableF_length bad gap n x)]
          rw [← partF_getD_stable bad gap (tableF bad gap n x) (x + 1) (rowAtF bad gap n x)
            ⟨none, none⟩ (by omega : k - 1 < k) (le_of_lt hk)]
          unfold cellF
          rw [rowAtF_succ]
          rfl
      unfold potRawF potentialF
      rw [if_neg hk0', if_neg hk0', hpc]
  rw [hstable, stepSlotF_getD_self bad gap _ _ _ (by rw [length_partF, rowAtF_length]; omega),
    hpot, hcur]

theorem cellF_zero (bad : List Cost) (gap n k : ℕ) :
    cellF bad gap n 0 k =
      if k = 0 ∧ 0 < n then ⟨some 0, bad.getD 0 none⟩ else ⟨none, none⟩ := by
  show (initRowF bad n).getD k ⟨none, none⟩ = _
  unfold initRowF
  rcases Nat.lt_or_ge k n with hk | hk
  · rw [getD_map_range _ hk]
    by_cases hk0 : k = 0
    · subst hk0
      rw [if_pos rfl, if_pos ⟨rfl, by omega⟩]
    · rw [if_neg hk0, if_neg (by tauto)]
  · rw [List.getD_eq_getElem?_getD]
    have hnone : ((List.range n).map (fun k =>
        if k = 0 then (⟨some 0, bad.getD 0 none⟩ : CellF) else ⟨none, none⟩))[k]? = none := by
      rw [List.getElem?_eq_none_iff]
      simpa using hk
    rw [hnone]
    have hno : ¬ (k = 0 ∧ 0 < n) := by omega
    rw [if_neg hno]
    rfl

/-! ## Invariant of the fixed DP cells -/

/-- Every backpointer records the row where its cell's value was installed:
the recorded position is at most the row index, a slot-0 cell's score is the
badness at its position, and a slot-`k+1` cell chains to a valid slot-`k`
cell at `p - gap` through the running mean. -/
theorem cellF_inv (bad : List Cost) (gap n : ℕ) :
    ∀ x k, k < n → ∀ p, (cellF bad gap n x k).pos = some p →
      p ≤ x ∧
      (k = 0 → (cellF bad gap n x k).sco = bad.getD p none) ∧
      (∀ k', k = k' + 1 →
        gap ≤ p ∧ (cellF bad gap n (p - gap) k').pos ≠ none ∧
        (cellF bad gap n x k).sco =
          calc_score (cellF bad gap n (p - gap) k').sco k (bad.getD p none)) := by
  intro x
  induction x with
  | zero =>
    intro k hk p hp
    rw [cellF_zero] at hp ⊢
    by_cases hcond : k = 0 ∧ 0 < n
    · rw [if_pos hcond] at hp ⊢
      have hp0 : p = 0 := by simpa using hp.symm
      subst hp0
      exact ⟨le_refl 0, fun _ => rfl, fun k' hkk => by omega⟩
    · rw [if_neg hcond] at hp
      simp at hp
  | succ x ih =>
    intro k hk p hp
    rw [cellF_succ bad gap n hk] at hp ⊢
    by_cases hupd : costLt (potentialF bad gap n x k) (cellF bad gap n x k).sco = true
    · rw [if_pos hupd] at hp ⊢
      have hpx : p = x + 1 := by simpa using hp.symm
      subst hpx
      obtain ⟨q, hq⟩ := costLt_some_of_true hupd
      refine ⟨le_refl _, ?_, ?_⟩
      · intro hk0
        subst hk0
        show potentialF bad gap n x 0 = bad.getD (x + 1) none
        unfold potentialF
        rw [if_pos rfl]
      · intro k' hkk
        subst hkk
        have hk0' : ¬ (k' + 1 = 0) := by omega
        unfold potentialF at hq
        rw [if_neg hk0'] at hq
        simp only [Nat.add_sub_cancel] at hq
        by_cases hg : gap ≤ x + 1
        · rw [if_pos hg] at hq
          by_cases hpcn : (cellF bad gap n (x + 1 - gap) k').pos = none
          · rw [if_pos hpcn] at hq; exact absurd hq (by simp)
          · rw [if_neg hpcn] at hq
            refine ⟨hg, by simpa using hpcn, ?_⟩
            show potentialF bad gap n x (k' + 1) = _
            unfold potentialF
            simp only [Nat.add_sub_cancel]
            rw [if_neg hk0', if_pos hg, if_neg hpcn]
        · rw [if_neg hg] at hq; exact absurd hq (by simp)
    · rw [if_neg hupd] at hp ⊢
      obtain ⟨h1, h2, h3⟩ := ih k hk p hp
      exact ⟨by omega, h2, h3⟩

/-! ## Backtracking correctness for the fixed DP -/

theorem pyGet_tableF (bad : List Cost) (gap n : ℕ) {x G : ℕ} (h : x ≤ G) :
    pyGet (tableF bad gap n G) (x : ℤ) = some (rowAtF bad gap n x) := by
  rw [pyGet_lt _ _ (by rw [tableF_length]; omega) []]
  rw [tableF_getD_of_le bad gap n h]

theorem btF_step (table : List (List CellF)) (gap s : ℕ) (x : ℤ) (ck : ℕ)
    (row : List CellF) (p : ℕ)
    (h1 : pyGet table x = some row) (h2 : (row.getD ck ⟨none, none⟩).pos = some p) :
    btF table gap (s + 1) x ck =
      (btF table gap s ((p : ℤ) - gap) (ck - 1)).map (fun ps => p :: ps) := by
  rw [btF, h1]
  dsimp only
  rw [h2]

/-- A cell with a backpointer backtracks without error to a full, properly
spaced chain of `k + 1` positions, all at most the cell's row index; if its
score is finite, the score times the probe count is the sum of the badness
values of the chain (in particular every one of them is finite). -/
theorem btF_chain (bad : List Cost) (gap n G : ℕ) :
    ∀ k x p, x ≤ G → k < n → (cellF bad gap n x k).pos = some p →
      ∃ ps, btF (tableF bad gap n G) gap (k + 1) (x : ℤ) k = some (p :: ps) ∧
        (p :: ps).length = k + 1 ∧
        List.Chain' (fun a b => b + gap ≤ a) (p :: ps) ∧
        (∀ q ∈ p :: ps, q ≤ x) ∧
        (∀ s : ℚ, (cellF bad gap n x k).sco = some s →
          ∃ bs : List ℚ, (p :: ps).map (fun q => bad.getD q none) = bs.map some ∧
            s * ((k : ℚ) + 1) = bs.sum) := by
  intro k
  induction k with
  | zero =>
    intro x p hx hk hp
    obtain ⟨hpx, hsco0, _⟩ := cellF_inv bad gap n x 0 hk p hp
    refine ⟨[], ?_, rfl, List.chain'_singleton p, ?_, ?_⟩
    · rw [btF_step _ gap 0 _ 0 (rowAtF bad gap n x) p (pyGet_tableF bad gap n hx) hp]
      rfl
    · intro q hq
      rw [List.mem_singleton] at hq
      omega
    · intro s hs
      refine ⟨[s], ?_, by simp⟩
      simp only [List.map_cons, List.map_nil]
      rw [hsco0 rfl] at hs
      rw [hs]
  | succ k ihk =>
    intro x p hx hk hp
    obtain ⟨hpx, _, hchain⟩ := cellF_inv bad gap n x (k + 1) hk p hp
    obtain ⟨hgap, hpcn, hscoeq⟩ := hchain k rfl
    obtain ⟨p', hp'⟩ : ∃ p', (cellF bad gap n (p - gap) k).pos = some p' := by
      cases hc : (cellF bad gap n (p - gap) k).pos with
      | none => exact absurd hc hpcn
      | some q => exact ⟨q, rfl⟩
    obtain ⟨ps', hbt', hlen', hchain', hmem', hsum'⟩ :=
      ihk (p - gap) p' (by omega) (by omega) hp'
    have hcast : (p : ℤ) - gap = ((p - gap : ℕ) : ℤ) := by omega
    refine ⟨p' :: ps', ?_, by simpa using hlen', ?_, ?_, ?_⟩
    · rw [btF_step _ gap (k + 1) _ (k + 1) (rowAtF bad gap n x) p
        (pyGet_tableF bad gap n hx) hp]
      rw [hcast]
      show (btF (tableF bad gap n G) gap (k + 1) _ k).map _ = _
      rw [hbt']
      rfl
    · rw [List.chain'_cons]
      refine ⟨?_, hchain'⟩
      have := hmem' p' (List.mem_cons_self p' ps')
      omega
    · intro q hq
      rcases List.mem_cons.mp hq with hq | hq
      · omega
      · have := hmem' q hq
        omega
    · intro s hs
      rw [hscoeq] at hs
      obtain ⟨a', b', ha', hb', hsval⟩ := calc_score_eq_some hs
      obtain ⟨bs', hmap', hsum'⟩ := hsum' a' ha'
      refine ⟨b' :: bs', ?_, ?_⟩
      · rw [List.map_cons, hmap', hb', List.map_cons]
      · have hne : ((k : ℚ) + 1) + 1 ≠ 0 := by positivity
        rw [List.sum_cons, ← hsum']
        rw [hsval]
        push_cast
        field_simp
        ring

/-! ## Characterization of the returned fixed-length solutions -/

/-- What each returned `(score, positions)` pair of the fixed DP satisfies:
the score passes the validity threshold, the positions are nonempty, spaced
by at least `gap` in increasing order, and the score times the probe count
equals the sum of the (all finite) badness values at the positions. -/
def solPropF (bad : List Cost) (gap : ℕ) (e : Cost × List ℕ) : Prop :=
  costLt e.1 (some 1000000) = true ∧
  e.2 ≠ [] ∧
  List.Chain' (fun a b => a + gap ≤ b) e.2 ∧
  ∃ (s : ℚ) (bs : List ℚ), e.1 = some s ∧
    e.2.map (fun q => bad.getD q none) = bs.map some ∧
    s * (e.2.length : ℚ) = bs.sum

theorem resultsF_fold_inv (bad : List Cost) (gap n : ℕ) (hbad : bad ≠ []) :
    ∀ m, m ≤ n → ∃ rs,
      (List.range m).foldl
        (resStepF (tableF bad gap n (bad.length - 1)) gap bad.length) (some []) = some rs ∧
      (∀ e ∈ rs, solPropF bad gap e ∧ e.2.length ≤ m) ∧
      List.Pairwise (fun a b => a.2.length < b.2.length) rs ∧
      (rs = [] ∨ ∃ b ∈ rs, rs.getLast? = some b ∧ ∀ e ∈ rs, e.2.length ≤ b.2.length) := by
  have hlen : 0 < bad.length := List.length_pos.mpr hbad
  have hgood : (bad.length : ℤ) - 1 = ((bad.length - 1 : ℕ) : ℤ) := by omega
  intro m
  induction m with
  | zero =>
    intro _
    exact ⟨[], rfl, by simp, List.Pairwise.nil, Or.inl rfl⟩
  | succ m ih =>
    intro hm
    obtain ⟨rs, hfold, hQ, hpw, hlast⟩ := ih (by omega)
    rw [List.range_succ, List.foldl_append, hfold]
    show ∃ rs', resStepF _ gap bad.length (some rs) m = some rs' ∧ _
    unfold resStepF
    rw [Option.some_bind, hgood, pyGet_tableF bad gap n (le_refl (bad.length - 1))]
    dsimp only
    cases hpos : ((rowAtF bad gap n (bad.length - 1)).getD m ⟨none, none⟩).pos with
    | none =>
      refine ⟨rs, rfl, fun e he => ⟨(hQ e he).1, by have := (hQ e he).2; omega⟩, hpw, hlast⟩
    | some p =>
      by_cases htb : scoreTooBig ((rowAtF bad gap n (bad.length - 1)).getD m ⟨none, none⟩).sco
      · rw [if_pos htb]
        exact ⟨rs, rfl, fun e he => ⟨(hQ e he).1, by have := (hQ e he).2; omega⟩, hpw, hlast⟩
      · rw [if_neg htb]
        obtain ⟨s, hsc, hslt, hclt⟩ :=
          scoreTooBig_eq_false (c := ((rowAtF bad gap n (bad.length - 1)).getD m ⟨none, none⟩).sco)
            (by simpa using htb)
        obtain ⟨ps, hbt, hlenps, hchain, hmem, hsum⟩ :=
          btF_chain bad gap n (bad.length - 1) m (bad.length - 1) p (le_refl _) (by omega) hpos
        rw [hbt]
        refine ⟨rs ++ [(((rowAtF bad gap n (bad.length - 1)).getD m ⟨none, none⟩).sco,
          (p :: ps).reverse)], rfl, ?_, ?_, ?_⟩
        · intro e he
          rcases List.mem_append.mp he with he | he
          · exact ⟨(hQ e he).1, by have := (hQ e he).2; omega⟩
          · rw [List.mem_singleton] at he
            subst he
            obtain ⟨bs, hmap, hbsum⟩ := hsum s hsc
            refine ⟨⟨hclt, by simp, ?_, s, bs.reverse, hsc, ?_, ?_⟩, ?_⟩
            · show List.Chain' _ (p :: ps).reverse
              rw [List.chain'_reverse]
              exact hchain
            · show ((p :: ps).reverse).map _ = _
              rw [List.map_reverse, hmap, ← List.map_reverse]
            · show s * (((p :: ps).reverse).length : ℚ) = bs.reverse.sum
              rw [List.sum_reverse, List.length_reverse, hlenps, ← hbsum]
              push_cast
              ring
            · show ((p :: ps).reverse).length ≤ m + 1
              rw [List.length_reverse, hlenps]
        · rw [List.pairwise_append]
          refine ⟨hpw, List.pairwise_singleton _ _, ?_⟩
          intro a ha b hb
          rw [List.mem_singleton] at hb
          subst hb
          show a.2.length < ((p :: ps).reverse).length
          rw [List.length_reverse, hlenps]
          have := (hQ a ha).2
          omega
        · refine Or.inr ⟨_, List.mem_append_right _ (List.mem_singleton_self _), ?_, ?_⟩
          · exact List.getLast?_concat _
          · intro e he
            rcases List.mem_append.mp he with he | he
            · show e.2.length ≤ ((p :: ps).reverse).length
              rw [List.length_reverse, hlenps]
              have := (hQ e he).2
              omega
            · rw [List.mem_singleton] at he
              subst he
              exact le_refl _

/-- Master theorem for `find_best_probes`: every returned solution satisfies
`solPropF`, the solutions are listed in strictly increasing probe count, and
the selector picks a solution with the greatest probe count. -/
theorem find_best_probes_spec (bad : List Cost) (sl ol sp n : ℕ)
    (sols : List (Cost × List ℕ)) (h : find_best_probes bad sl ol sp n = some sols) :
    (∀ e ∈ sols, solPropF bad (ol + sp) e) ∧
    List.Pairwise (fun a b => a.2.length < b.2.length) sols ∧
    (sols = [] ∨ ∃ b ∈ sols, select_solution sols = some b ∧
      ∀ e ∈ sols, e.2.length ≤ b.2.length) := by
  unfold find_best_probes at h
  rcases Decidable.em (bad.length = 0 ∨ n = 0) with hdeg | hdeg
  · rw [if_pos hdeg] at h
    exact absurd h (by simp)
  · rw [if_neg hdeg] at h
    have hbad : bad ≠ [] := by
      intro hnil
      exact hdeg (Or.inl (by simp [hnil]))
    obtain ⟨rs, hfold, hQ, hpw, hlast⟩ := resultsF_fold_inv bad (ol + sp) n hbad n (le_refl n)
    unfold resultsF at h
    rw [hfold] at h
    have hrs : rs = sols := by simpa using h
    subst hrs
    refine ⟨fun e he => (hQ e he).1, hpw, ?_⟩
    rcases hlast with hnil | ⟨b, hb, hlast', hmax⟩
    · exact Or.inl hnil
    · exact Or.inr ⟨b, hb, hlast', hmax⟩

/-! ## Structure of the mixed DP table -/

/-- Row `e` of the mixed DP table. -/
def rowAtM (bad2d : List (List Cost)) (minLen nLengths spacer nProbes e : ℕ) : List CellM :=
  (tableM bad2d minLen nLengths spacer nProbes (e + 1)).getD e []

/-- Final value of the mixed DP cell at end position `e`, slot `k`. -/
def cellM (bad2d : List (List Cost)) (minLen nLengths spacer nProbes e k : ℕ) : CellM :=
  (rowAtM bad2d minLen nLengths spacer nProbes e).getD k ⟨none, none⟩

theorem tableM_length (bad2d : List (List Cost)) (minLen nLengths spacer nProbes e : ℕ) :
    (tableM bad2d minLen nLengths spacer nProbes e).length = e := by
  induction e with
  | zero => rfl
  | succ e ih => simp [tableM, ih]

theorem tableM_getD_of_lt (bad2d : List (List Cost)) (minLen nLengths spacer nProbes : ℕ)
    {y e : ℕ} (h : y < e) :
    (tableM bad2d minLen nLengths spacer nProbes e).getD y [] =
      rowAtM bad2d minLen nLengths spacer nProbes y := by
  induction e with
  | zero => omega
  | succ e ih =>
    rcases Nat.lt_or_ge y e with hy | hy
    · show (tableM bad2d minLen nLengths spacer nProbes e ++ [_]).getD y [] = _
      rw [getD_append_left' [] (by rw [tableM_length]; omega)]
      exact ih hy
    · have : y = e := by omega
      subst this; rfl

theorem rowAtM_eq (bad2d : List (List Cost)) (minLen nLengths spacer nProbes e : ℕ) :
    rowAtM bad2d minLen nLengths spacer nProbes e =
      rowM bad2d minLen nLengths spacer nProbes
        (tableM bad2d minLen nLengths spacer nProbes e) e := by
  show (tableM bad2d minLen nLengths spacer nProbes e ++ [_]).getD e [] = _
  rw [getD_concat_eq [] (tableM_length bad2d minLen nLengths spacer nProbes e)]

theorem length_stepKM (spacer : ℕ) (prev : List (List CellM)) (x L : ℕ) (b : ℚ)
    (row : List CellM) (k : ℕ) :
    (stepKM spacer prev x L b row k).length = row.length := by
  unfold stepKM
  dsimp only
  split <;> simp [List.length_set]

theorem length_foldl_stepKM (spacer : ℕ) (prev : List (List CellM)) (x L : ℕ) (b : ℚ)
    (l : List ℕ) (r : List CellM) :
    (l.foldl (stepKM spacer prev x L b) r).length = r.length := by
  induction l generalizing r with
  | nil => rfl
  | cons a l ih => rw [List.foldl_cons, ih, length_stepKM]

theorem length_stepLM (bad2d : List (List Cost)) (minLen spacer nProbes : ℕ)
    (prev : List (List CellM)) (e : ℕ) (row : List CellM) (Lidx : ℕ) :
    (stepLM bad2d minLen spacer nProbes prev e row Lidx).length = row.length := by
  unfold stepLM
  dsimp only
  split
  · rfl
  · split
    · rfl
    · split
      · rfl
      · rw [length_foldl_stepKM]

theorem length_foldl_stepLM (bad2d : List (List Cost)) (minLen spacer nProbes : ℕ)
    (prev : List (List CellM)) (e : ℕ) (l : List ℕ) (r : List CellM) :
    (l.foldl (stepLM bad2d minLen spacer nProbes prev e) r).length = r.length := by
  induction l generalizing r with
  | nil => rfl
  | cons a l ih => rw [List.foldl_cons, ih, length_stepLM]

theorem length_carryRowM (prev : List CellM) : (carryRowM prev).length = prev.length := by
  unfold carryRowM
  rw [List.length_map]

theorem rowAtM_length (bad2d : List (List Cost)) (minLen nLengths spacer nProbes : ℕ)
    (e : ℕ) : (rowAtM bad2d minLen nLengths spacer nProbes e).length = nProbes := by
  induction e using Nat.strong_induction_on with
  | _ e ih =>
    rw [rowAtM_eq]
    unfold rowM
    rw [length_foldl_stepLM]
    split
    · next he =>
      rw [tableM_getD_of_lt bad2d minLen nLengths spacer nProbes (by omega),
        length_carryRowM]
      exact ih (e - 1) (by omega)
    · rw [List.length_replicate]

/-! ## Invariant of the mixed DP cells -/

theorem getD_map_of_lt {α β : Type _} {f : α → β} {l : List α} {k : ℕ} (d : α) (d' : β)
    (h : k < l.length) : (l.map f).getD k d' = f (l.getD k d) := by
  rw [List.getD_eq_getElem?_getD, List.getElem?_map, List.getD_eq_getElem?_getD]
  cases hg : l[k]? with
  | none => rw [List.getElem?_eq_none_iff] at hg; omega
  | some a => rfl

/-- Invariant of one mixed DP cell at slot `k` of the row for end position
`e`, with the `prev_end` lookups resolved against the table state `tbl`: a
tracker entry `(x, L)` is an in-range candidate of an admitted length whose
badness is finite and whose probe ends at or before `e`; its score is
finite; a slot-0 score is the badness itself; a slot-`k'+1` cell respects
the spacing guard and chains to a valid slot-`k'` cell at `x - spacer - 1`
(the score equation requires `minLen + spacer ≥ 1`: with zero-length probes
and no spacer the Python code can read a same-row cell that is later
improved, detaching the stored score from the final chain). -/
def cellInvAuxM (bad2d : List (List Cost)) (minLen nLengths spacer : ℕ)
    (tbl : List (List CellM)) (e k : ℕ) (c : CellM) : Prop :=
  ∀ x L, c.trk = some (x, L) →
    minLen ≤ L ∧ L - minLen < nLengths ∧ x < bad2d.length ∧ x + L ≤ e + 1 ∧
    (bad2d.getD x []).getD (L - minLen) none ≠ none ∧
    c.sco ≠ none ∧
    (k = 0 → c.sco = (bad2d.getD x []).getD (L - minLen) none) ∧
    (∀ k', k = k' + 1 →
      spacer + 1 ≤ x ∧
      ((tbl.getD (x - spacer - 1) []).getD k' ⟨none, none⟩).trk ≠ none ∧
      (1 ≤ minLen + spacer →
        c.sco = calc_score ((tbl.getD (x - spacer - 1) []).getD k' ⟨none, none⟩).sco
          (k' + 1) ((bad2d.getD x []).getD (L - minLen) none)))

theorem stepKM_inv (bad2d : List (List Cost)) (minLen nLengths spacer nProbes : ℕ)
    (e x L : ℕ) (b : ℚ)
    (hL1 : minLen ≤ L) (hL2 : L - minLen < nLengths) (hxlen : x < bad2d.length)
    (hxe : x + L = e + 1) (hb : (bad2d.getD x []).getD (L - minLen) none = some b)
    (r : List CellM) (hrlen : r.length = nProbes) (k₀ : ℕ) (hk₀ : k₀ < nProbes)
    (hinv : ∀ k, cellInvAuxM bad2d minLen nLengths spacer
      (tableM bad2d minLen nLengths spacer nProbes e ++ [r]) e k (r.getD k ⟨none, none⟩)) :
    ∀ k, cellInvAuxM bad2d minLen nLengths spacer
      (tableM bad2d minLen nLengths spacer nProbes e ++
        [stepKM spacer (tableM bad2d minLen nLengths spacer nProbes e) x L b r k₀]) e k
      ((stepKM spacer (tableM bad2d minLen nLengths spacer nProbes e) x L b r k₀).getD k
        ⟨none, none⟩) := by
  have htlen : (tableM bad2d minLen nLengths spacer nProbes e).length = e :=
    tableM_length bad2d minLen nLengths spacer nProbes e
  by_cases hupd : costLt
      (scoreRawM spacer (tableM bad2d minLen nLengths spacer nProbes e ++ [r]) x k₀ b)
      ((r.getD k₀ ⟨none, none⟩).sco) = true
  case neg =>
    have hr' : stepKM spacer (tableM bad2d minLen nLengths spacer nProbes e) x L b r k₀ = r := by
      unfold stepKM
      dsimp only
      rw [if_neg hupd]
    rw [hr']
    exact hinv
  case pos =>
    set score := scoreRawM spacer
      (tableM bad2d minLen nLengths spacer nProbes e ++ [r]) x k₀ b with hscore
    have hr' : stepKM spacer (tableM bad2d minLen nLengths spacer nProbes e) x L b r k₀ =
        r.set k₀ ⟨score, some (x, L)⟩ := by
      unfold stepKM
      dsimp only
      rw [← hscore, if_pos hupd]
    rw [hr']
    -- the referenced cell of the freshly written slot, against the OLD state
    intro k x' L' htrk
    by_cases hkk : k = k₀
    · -- the freshly written cell
      subst hkk
      rw [getD_set_self' _ (by omega)] at htrk
      have hxL : x = x' ∧ L = L' := by simpa using htrk
      obtain ⟨hx', hL'⟩ := hxL
      subst hx'; subst hL'
      have hscosome : ∃ q, score = some q := costLt_some_of_true hupd
      have hcell : (r.set k ⟨score, some (x, L)⟩).getD k ⟨none, none⟩ =
          ⟨score, some (x, L)⟩ := getD_set_self' _ (by omega)
      rw [hcell]
      refine ⟨hL1, hL2, hxlen, by omega, by rw [hb]; simp, ?_, ?_, ?_⟩
      · obtain ⟨q, hq⟩ := hscosome
        rw [hq]; simp
      · intro hk0
        subst hk0
        show score = _
        rw [hscore]
        unfold scoreRawM
        rw [if_pos rfl, hb]
      · intro k' hkk'
        subst hkk'
        -- analyse the score expression
        obtain ⟨q, hq⟩ := hscosome
        rw [hscore] at hq
        unfold scoreRawM at hq
        rw [if_neg (by omega)] at hq
        simp only [Nat.add_sub_cancel] at hq
        by_cases hsp : x < spacer + 1
        · rw [if_pos hsp] at hq; exact absurd hq (by simp)
        · rw [if_neg hsp] at hq
          by_cases hpcn : (((tableM bad2d minLen nLengths spacer nProbes e ++ [r]).getD
              (x - spacer - 1) []).getD k' ⟨none, none⟩).trk = none
          · rw [if_pos hpcn] at hq; exact absurd hq (by simp)
          · rw [if_neg hpcn] at hq
            refine ⟨by omega, ?_, ?_⟩
            · -- the reference under the NEW state: slot k' ≠ k₀ is unchanged
              rcases Nat.lt_trichotomy (x - spacer - 1) e with hpe | hpe | hpe
              · rw [getD_append_left' [] (by omega)] at hpcn ⊢
                exact hpcn
              · rw [hpe] at hpcn ⊢
                rw [getD_concat_eq [] htlen] at hpcn ⊢
                rw [getD_set_ne' _ (by omega)]
                exact hpcn
              · exfalso
                apply hpcn
                rw [List.getD_eq_default _ _ (by simp [htlen]; omega)]
            · intro hms
              show score = _
              have hble : (bad2d.getD x []).getD (L - minLen) none = some b := hb
              -- under the guard the reference row is strictly below e
              have hpelt : x - spacer - 1 < e := by omega
              rw [getD_append_left' [] (by omega)] at hq
              rw [getD_append_left' [] (by omega)]
              rw [hscore]
              unfold scoreRawM
              rw [if_neg (by omega : ¬ (k' + 1 = 0))]
              simp only [Nat.add_sub_cancel]
              rw [if_neg hsp, if_neg (by
                rw [getD_append_left' [] (by omega)]
                intro hcontra
                exact absurd hcontra (by
                  rw [getD_append_left' [] (by omega)] at hpcn
                  exact hpcn))]
              rw [getD_append_left' [] (by omega), hb]
    · -- an untouched cell: its value is unchanged, transfer the references
      rw [getD_set_ne' _ (fun h => hkk h.symm)] at htrk
      obtain ⟨h1, h2, h3, h4, h5, h6, h7, h8⟩ := hinv k x' L' htrk
      rw [getD_set_ne' _ (fun h => hkk h.symm)]
      refine ⟨h1, h2, h3, h4, h5, h6, h7, ?_⟩
      intro k' hkk'
      obtain ⟨h81, h82, h83⟩ := h8 k' hkk'
      refine ⟨h81, ?_, ?_⟩
      · rcases Nat.lt_trichotomy (x' - spacer - 1) e with hpe | hpe | hpe
        · rw [getD_append_left' [] (by omega)] at h82 ⊢
          exact h82
        · rw [hpe] at h82 ⊢
          rw [getD_concat_eq [] htlen] at h82 ⊢
          by_cases hk'k₀ : k' = k₀
          · subst hk'k₀
            rw [getD_set_self' _ (by omega)]
            simp
          · rw [getD_set_ne' _ (fun h => hk'k₀ h.symm)]
            exact h82
        · exfalso
          apply h82
          rw [List.getD_eq_default _ _ (by simp [htlen]; omega)]
      · intro hms
        have h83' := h83 hms
        -- under the guard the reference row is strictly below e
        have hkclauses := hinv k x' L' htrk
        have hpelt : x' - spacer - 1 < e := by
          rcases Nat.lt_trichotomy (x' - spacer - 1) e with hpe | hpe | hpe
          · exact hpe
          · exfalso
            -- x' = e + spacer + 1 together with x' + L' ≤ e + 1 forces
            -- spacer = L' = 0 and then minLen = 0, contradicting the guard
            omega
          · exfalso
            apply h82
            rw [List.getD_eq_default _ _ (by simp [htlen]; omega)]
        rw [getD_append_left' [] (by omega)] at h83'
        rw [getD_append_left' [] (by omega)]
        exact h83'

theorem foldK_inv (bad2d : List (List Cost)) (minLen nLengths spacer nProbes : ℕ)
    (e x L : ℕ) (b : ℚ)
    (hL1 : minLen ≤ L) (hL2 : L - minLen < nLengths) (hxlen : x < bad2d.length)
    (hxe : x + L = e + 1) (hb : (bad2d.getD x []).getD (L - minLen) none = some b) :
    ∀ (ks : List ℕ), (∀ a ∈ ks, a < nProbes) →
    ∀ (r : List CellM), r.length = nProbes →
    (∀ k, cellInvAuxM bad2d minLen nLengths spacer
      (tableM bad2d minLen nLengths spacer nProbes e ++ [r]) e k (r.getD k ⟨none, none⟩)) →
    (ks.foldl (stepKM spacer (tableM bad2d minLen nLengths spacer nProbes e) x L b) r).length
      = nProbes ∧
    ∀ k, cellInvAuxM bad2d minLen nLengths spacer
      (tableM bad2d minLen nLengths spacer nProbes e ++
        [ks.foldl (stepKM spacer (tableM bad2d minLen nLengths spacer nProbes e) x L b) r]) e k
      ((ks.foldl (stepKM spacer (tableM bad2d minLen nLengths spacer nProbes e) x L b) r).getD k
        ⟨none, none⟩) := by
  intro ks
  induction ks with
  | nil => exact fun _ r hr hi => ⟨hr, hi⟩
  | cons a ks ih =>
    intro hmem r hr hi
    rw [List.foldl_cons]
    exact ih (fun q hq => hmem q (List.mem_cons_of_mem a hq))
      _ (by rw [length_stepKM]; exact hr)
      (stepKM_inv bad2d minLen nLengths spacer nProbes e x L b hL1 hL2 hxlen hxe hb
        r hr a (hmem a (List.mem_cons_self a ks)) hi)

theorem stepLM_inv (bad2d : List (List Cost)) (minLen nLengths spacer nProbes : ℕ)
    (e Lidx : ℕ) (hLidx : Lidx < nLengths)
    (r : List CellM) (hr : r.length = nProbes)
    (hi : ∀ k, cellInvAuxM bad2d minLen nLengths spacer
      (tableM bad2d minLen nLengths spacer nProbes e ++ [r]) e k (r.getD k ⟨none, none⟩)) :
    (stepLM bad2d minLen spacer nProbes (tableM bad2d minLen nLengths spacer nProbes e) e
      r Lidx).length = nProbes ∧
    ∀ k, cellInvAuxM bad2d minLen nLengths spacer
      (tableM bad2d minLen nLengths spacer nProbes e ++
        [stepLM bad2d minLen spacer nProbes (tableM bad2d minLen nLengths spacer nProbes e) e
          r Lidx]) e k
      ((stepLM bad2d minLen spacer nProbes (tableM bad2d minLen nLengths spacer nProbes e) e
        r Lidx).getD k ⟨none, none⟩) := by
  unfold stepLM
  dsimp only
  split
  · exact ⟨hr, hi⟩
  · split
    · exact ⟨hr, hi⟩
    · split
      · exact ⟨hr, hi⟩
      · next hL hx b hb =>
        exact foldK_inv bad2d minLen nLengths spacer nProbes e (e + 1 - (minLen + Lidx))
          (minLen + Lidx) b (by omega) (by simpa using hLidx) (by omega) (by omega)
          (by simpa using hb) (List.range nProbes) (fun a ha => List.mem_range.mp ha) r hr hi

theorem foldL_inv (bad2d : List (List Cost)) (minLen nLengths spacer nProbes : ℕ) (e : ℕ) :
    ∀ (ls : List ℕ), (∀ a ∈ ls, a < nLengths) →
    ∀ (r : List CellM), r.length = nProbes →
    (∀ k, cellInvAuxM bad2d minLen nLengths spacer
      (tableM bad2d minLen nLengths spacer nProbes e ++ [r]) e k (r.getD k ⟨none, none⟩)) →
    (ls.foldl (stepLM bad2d minLen spacer nProbes
      (tableM bad2d minLen nLengths spacer nProbes e) e) r).length = nProbes ∧
    ∀ k, cellInvAuxM bad2d minLen nLengths spacer
      (tableM bad2d minLen nLengths spacer nProbes e ++
        [ls.foldl (stepLM bad2d minLen spacer nProbes
          (tableM bad2d minLen nLengths spacer nProbes e) e) r]) e k
      ((ls.foldl (stepLM bad2d minLen spacer nProbes
        (tableM bad2d minLen nLengths spacer nProbes e) e) r).getD k ⟨none, none⟩) := by
  intro ls
  induction ls with
  | nil => exact fun _ r hr hi => ⟨hr, hi⟩
  | cons a ls ih =>
    intro hmem r hr hi
    rw [List.foldl_cons]
    obtain ⟨hr', hi'⟩ := stepLM_inv bad2d minLen nLengths spacer nProbes e a
      (hmem a (List.mem_cons_self a ls)) r hr hi
    exact ih (fun q hq => hmem q (List.mem_cons_of_mem a hq)) _ hr' hi'

theorem getD_replicate_self {α : Type _} (n k : ℕ) (a : α) :
    (List.replicate n a).getD k a = a := by
  rw [List.getD_eq_getElem?_getD, List.getElem?_replicate]
  split <;> rfl

/-- The invariant holds for every finalized cell of the mixed DP table. -/
theorem cellM_inv (bad2d : List (List Cost)) (minLen nLengths spacer nProbes : ℕ) :
    ∀ e k, cellInvAuxM bad2d minLen nLengths spacer
      (tableM bad2d minLen nLengths spacer nProbes (e + 1)) e k
      (cellM bad2d minLen nLengths spacer nProbes e k) := by
  intro e
  induction e using Nat.strong_induction_on with
  | _ e ih =>
    have htlen : (tableM bad2d minLen nLengths spacer nProbes e).length = e :=
      tableM_length bad2d minLen nLengths spacer nProbes e
    -- the carried row satisfies the invariant
    have hcarr : ∀ carried, carried = (if 0 < e then
        carryRowM ((tableM bad2d minLen nLengths spacer nProbes e).getD (e - 1) [])
        else List.replicate nProbes ⟨none, none⟩) →
        carried.length = nProbes ∧
        ∀ k, cellInvAuxM bad2d minLen nLengths spacer
          (tableM bad2d minLen nLengths spacer nProbes e ++ [carried]) e k
          (carried.getD k ⟨none, none⟩) := by
      intro carried hc
      by_cases he : 0 < e
      · rw [if_pos he] at hc
        rw [tableM_getD_of_lt bad2d minLen nLengths spacer nProbes (by omega)] at hc
        have hlen : carried.length = nProbes := by
          rw [hc, length_carryRowM, rowAtM_length]
        refine ⟨hlen, ?_⟩
        intro k x L htrk
        rcases Nat.lt_or_ge k nProbes with hk | hk
        · have hkb : k < (rowAtM bad2d minLen nLengths spacer nProbes (e - 1)).length := by
            rw [rowAtM_length]; omega
          rw [hc] at htrk
          unfold carryRowM at htrk
          rw [getD_map_of_lt (⟨none, none⟩ : CellM) (⟨none, none⟩ : CellM) hkb] at htrk
          have hcelldef : (rowAtM bad2d minLen nLengths spacer nProbes (e - 1)).getD k
              ⟨none, none⟩ = cellM bad2d minLen nLengths spacer nProbes (e - 1) k := rfl
          rw [hcelldef] at htrk
          by_cases hkeep : costLt (cellM bad2d minLen nLengths spacer nProbes (e - 1) k).sco
              none = true
          · rw [if_pos hkeep] at htrk
            have hee : e - 1 + 1 = e := by omega
            have hihk := ih (e - 1) (by omega) k x L htrk
            rw [hee] at hihk
            obtain ⟨h1, h2, h3, h4, h5, h6, h7, h8⟩ := hihk
            have hcell : carried.getD k ⟨none, none⟩ =
                cellM bad2d minLen nLengths spacer nProbes (e - 1) k := by
              rw [hc]
              unfold carryRowM
              rw [getD_map_of_lt (⟨none, none⟩ : CellM) (⟨none, none⟩ : CellM) hkb,
                hcelldef, if_pos hkeep]
            rw [hcell]
            refine ⟨h1, h2, h3, by omega, h5, h6, h7, ?_⟩
            intro k' hk'
            obtain ⟨h81, h82, h83⟩ := h8 k' hk'
            have hpe : x - spacer - 1 < e := by omega
            rw [getD_append_left' [] (by omega)]
            exact ⟨h81, h82, h83⟩
          · rw [if_neg hkeep] at htrk
            simp at htrk
        · rw [hc] at htrk
          rw [List.getD_eq_default _ _ (by rw [length_carryRowM, rowAtM_length]; omega)] at htrk
          simp at htrk
      · rw [if_neg he] at hc
        have hlen : carried.length = nProbes := by rw [hc, List.length_replicate]
        refine ⟨hlen, ?_⟩
        intro k x L htrk
        rw [hc, getD_replicate_self] at htrk
        simp at htrk
    obtain ⟨hclen, hcinv⟩ := hcarr _ rfl
    obtain ⟨hflen, hfinv⟩ := foldL_inv bad2d minLen nLengths spacer nProbes e
      (List.range nLengths) (fun a ha => List.mem_range.mp ha) _ hclen hcinv
    intro k
    have hrow : rowAtM bad2d minLen nLengths spacer nProbes e =
        (List.range nLengths).foldl
          (stepLM bad2d minLen spacer nProbes (tableM bad2d minLen nLengths spacer nProbes e) e)
          (if 0 < e then
            carryRowM ((tableM bad2d minLen nLengths spacer nProbes e).getD (e - 1) [])
            else List.replicate nProbes ⟨none, none⟩) := by
      rw [rowAtM_eq]
      rfl
    have htab : tableM bad2d minLen nLengths spacer nProbes (e + 1) =
        tableM bad2d minLen nLengths spacer nProbes e ++
          [rowAtM bad2d minLen nLengths spacer nProbes e] := by
      rw [rowAtM_eq]
      rfl
    rw [htab]
    unfold cellM
    rw [hrow]
    exact hfinv k

/-! ## Backtracking correctness for the mixed DP -/

theorem pyGet_tableM (bad2d : List (List Cost)) (minLen nLengths spacer nProbes : ℕ)
    {e E : ℕ} (h : e < E) :
    pyGet (tableM bad2d minLen nLengths spacer nProbes E) (e : ℤ) =
      some (rowAtM bad2d minLen nLengths spacer nProbes e) := by
  rw [pyGet_lt _ _ (by rw [tableM_length]; omega) []]
  rw [tableM_getD_of_lt bad2d minLen nLengths spacer nProbes h]

theorem btM_step (table : List (List CellM)) (spacer s : ℕ) (e : ℤ) (ck : ℕ)
    (row : List CellM) (x L : ℕ)
    (h1 : pyGet table e = some row) (h2 : (row.getD ck ⟨none, none⟩).trk = some (x, L)) :
    btM table spacer (s + 1) e ck =
      (btM table spacer s ((x : ℤ) - spacer - 1) (ck - 1)).map (fun ps => (x, L) :: ps) := by
  rw [btM, h1]
  dsimp only
  rw [h2]

/-- A mixed DP cell with a tracker backtracks without error or truncation to
a full chain of `k + 1` placements, each an admitted in-range window with
finite badness ending at or before the cell's row, consecutive placements
separated by at least `spacer` unused positions; under the validity
assumption `minLen + spacer ≥ 1`, a finite score times the probe count is
the sum of the badness values of the chain. -/
theorem btM_chain (bad2d : List (List Cost)) (minLen nLengths spacer nProbes seqLen : ℕ) :
    ∀ k e x L, e < seqLen →
      (cellM bad2d minLen nLengths spacer nProbes e k).trk = some (x, L) →
      ∃ ps, btM (tableM bad2d minLen nLengths spacer nProbes seqLen) spacer (k + 1)
          (e : ℤ) k = some ((x, L) :: ps) ∧
        ((x, L) :: ps).length = k + 1 ∧
        List.Chain' (fun a b => b.1 + b.2 + spacer ≤ a.1) ((x, L) :: ps) ∧
        (∀ q ∈ (x, L) :: ps, q.1 + q.2 ≤ e + 1 ∧ minLen ≤ q.2 ∧
          (bad2d.getD q.1 []).getD (q.2 - minLen) none ≠ none) ∧
        (1 ≤ minLen + spacer →
          ∀ s : ℚ, (cellM bad2d minLen nLengths spacer nProbes e k).sco = some s →
          ∃ bs : List ℚ,
            ((x, L) :: ps).map (fun q => (bad2d.getD q.1 []).getD (q.2 - minLen) none) =
              bs.map some ∧
            s * ((k : ℚ) + 1) = bs.sum) := by
  intro k
  induction k with
  | zero =>
    intro e x L he htrk
    obtain ⟨h1, h2, h3, h4, h5, h6, h7, _⟩ :=
      cellM_inv bad2d minLen nLengths spacer nProbes e 0 x L htrk
    refine ⟨[], ?_, rfl, List.chain'_singleton _, ?_, ?_⟩
    · rw [btM_step _ spacer 0 _ 0 (rowAtM bad2d minLen nLengths spacer nProbes e) x L
        (pyGet_tableM bad2d minLen nLengths spacer nProbes he) htrk]
      rfl
    · intro q hq
      rw [List.mem_singleton] at hq
      subst hq
      exact ⟨h4, h1, h5⟩
    · intro _ s hs
      refine ⟨[s], ?_, by simp⟩
      rw [h7 rfl] at hs
      simp only [List.map_cons, List.map_nil]
      rw [hs]
  | succ k ihk =>
    intro e x L he htrk
    obtain ⟨h1, h2, h3, h4, h5, h6, _, h8⟩ :=
      cellM_inv bad2d minLen nLengths spacer nProbes e (k + 1) x L htrk
    obtain ⟨h81, h82, h83⟩ := h8 k rfl
    have hpelt : x - spacer - 1 < e + 1 := by omega
    have hpe : ((tableM bad2d minLen nLengths spacer nProbes (e + 1)).getD
        (x - spacer - 1) []).getD k ⟨none, none⟩ =
        cellM bad2d minLen nLengths spacer nProbes (x - spacer - 1) k := by
      rw [tableM_getD_of_lt bad2d minLen nLengths spacer nProbes hpelt]
      rfl
    rw [hpe] at h82 h83
    obtain ⟨⟨x', L'⟩, htrk'⟩ : ∃ q, (cellM bad2d minLen nLengths spacer nProbes
        (x - spacer - 1) k).trk = some q := by
      cases hc : (cellM bad2d minLen nLengths spacer nProbes (x - spacer - 1) k).trk with
      | none => exact absurd hc h82
      | some q => exact ⟨q, rfl⟩
    obtain ⟨ps', hbt', hlen', hchain', hmem', hsum'⟩ :=
      ihk (x - spacer - 1) x' L' (by omega) htrk'
    have hcast : (x : ℤ) - spacer - 1 = ((x - spacer - 1 : ℕ) : ℤ) := by omega
    have hx'head := hmem' (x', L') (List.mem_cons_self _ _)
    refine ⟨(x', L') :: ps', ?_, by simpa using hlen', ?_, ?_, ?_⟩
    · rw [btM_step _ spacer (k + 1) _ (k + 1) (rowAtM bad2d minLen nLengths spacer nProbes e)
        x L (pyGet_tableM bad2d minLen nLengths spacer nProbes he) htrk]
      rw [hcast]
      show (btM _ spacer (k + 1) _ k).map _ = _
      rw [hbt']
      rfl
    · rw [List.chain'_cons]
      exact ⟨by omega, hchain'⟩
    · intro q hq
      rcases List.mem_cons.mp hq with hq | hq
      · subst hq
        exact ⟨h4, h1, h5⟩
      · obtain ⟨hq1, hq2, hq3⟩ := hmem' q hq
        exact ⟨by omega, hq2, hq3⟩
    · intro hms s hs
      rw [h83 hms] at hs
      obtain ⟨a', b', ha', hb', hsval⟩ := calc_score_eq_some hs
      obtain ⟨bs', hmap', hsum''⟩ := hsum' hms a' ha'
      refine ⟨b' :: bs', ?_, ?_⟩
      · rw [List.map_cons, hmap', hb', List.map_cons]
      · rw [List.sum_cons, ← hsum'']
        rw [hsval]
        push_cast
        have hne : ((k : ℚ) + 1) + 1 ≠ 0 := by positivity
        field_simp
        ring

/-! ## Characterization of the returned mixed-length solutions -/

/-- What each returned `(score, placements)` pair of the mixed DP satisfies:
the score passes the validity threshold; the placements are nonempty,
ordered with at least `spacer` unused positions between consecutive probes,
and each is an admitted window with finite badness; under the validity
assumption `minLen + spacer ≥ 1` the score times the probe count equals the
sum of the badness values of the placements. -/
def solPropM (bad2d : List (List Cost)) (minLen spacer : ℕ)
    (e : Cost × List (ℕ × ℕ)) : Prop :=
  costLt e.1 (some 1000000) = true ∧
  e.2 ≠ [] ∧
  List.Chain' (fun a b => a.1 + a.2 + spacer ≤ b.1) e.2 ∧
  (∀ q ∈ e.2, minLen ≤ q.2 ∧ (bad2d.getD q.1 []).getD (q.2 - minLen) none ≠ none) ∧
  (1 ≤ minLen + spacer →
    ∃ (s : ℚ) (bs : List ℚ), e.1 = some s ∧
      e.2.map (fun q => (bad2d.getD q.1 []).getD (q.2 - minLen) none) = bs.map some ∧
      s * (e.2.length : ℚ) = bs.sum)

theorem resultsM_fold_inv (bad2d : List (List Cost))
    (minLen nLengths spacer nProbes seqLen : ℕ) (hseq : 0 < seqLen) :
    ∀ m, ∃ rs,
      (List.range m).foldl
        (resStepM (tableM bad2d minLen nLengths spacer nProbes seqLen) spacer seqLen)
        (some []) = some rs ∧
      (∀ e ∈ rs, solPropM bad2d minLen spacer e ∧ e.2.length ≤ m) ∧
      List.Pairwise (fun a b => a.2.length < b.2.length) rs ∧
      (rs = [] ∨ ∃ b ∈ rs, rs.getLast? = some b ∧ ∀ e ∈ rs, e.2.length ≤ b.2.length) := by
  have hgood : (seqLen : ℤ) - 1 = ((seqLen - 1 : ℕ) : ℤ) := by omega
  intro m
  induction m with
  | zero =>
    exact ⟨[], rfl, by simp, List.Pairwise.nil, Or.inl rfl⟩
  | succ m ih =>
    obtain ⟨rs, hfold, hQ, hpw, hlast⟩ := ih
    rw [List.range_succ, List.foldl_append, hfold]
    show ∃ rs', resStepM _ spacer seqLen (some rs) m = some rs' ∧ _
    unfold resStepM
    rw [Option.some_bind, hgood,
      pyGet_tableM bad2d minLen nLengths spacer nProbes (by omega : seqLen - 1 < seqLen)]
    dsimp only
    cases htrk : ((rowAtM bad2d minLen nLengths spacer nProbes (seqLen - 1)).getD m
        ⟨none, none⟩).trk with
    | none =>
      refine ⟨rs, rfl, fun e he => ⟨(hQ e he).1, by have := (hQ e he).2; omega⟩, hpw, hlast⟩
    | some xL =>
      obtain ⟨x, L⟩ := xL
      by_cases htb : scoreTooBig ((rowAtM bad2d minLen nLengths spacer nProbes
          (seqLen - 1)).getD m ⟨none, none⟩).sco
      · rw [if_pos htb]
        exact ⟨rs, rfl, fun e he => ⟨(hQ e he).1, by have := (hQ e he).2; omega⟩, hpw, hlast⟩
      · rw [if_neg htb]
        obtain ⟨s, hsc, hslt, hclt⟩ := scoreTooBig_eq_false
          (c := ((rowAtM bad2d minLen nLengths spacer nProbes (seqLen - 1)).getD m
            ⟨none, none⟩).sco) (by simpa using htb)
        obtain ⟨ps, hbt, hlenps, hchain, hmem, hsum⟩ :=
          btM_chain bad2d minLen nLengths spacer nProbes seqLen m (seqLen - 1) x L
            (by omega) htrk
        rw [hbt]
        refine ⟨rs ++ [(((rowAtM bad2d minLen nLengths spacer nProbes (seqLen - 1)).getD m
          ⟨none, none⟩).sco, ((x, L) :: ps).reverse)], rfl, ?_, ?_, ?_⟩
        · intro e he
          rcases List.mem_append.mp he with he | he
          · exact ⟨(hQ e he).1, by have := (hQ e he).2; omega⟩
          · rw [List.mem_singleton] at he
            subst he
            refine ⟨⟨hclt, by simp, ?_, ?_, ?_⟩, ?_⟩
            · show List.Chain' _ ((x, L) :: ps).reverse
              rw [List.chain'_reverse]
              exact hchain
            · intro q hq
              rw [List.mem_reverse] at hq
              obtain ⟨_, hq2, hq3⟩ := hmem q hq
              exact ⟨hq2, hq3⟩
            · intro hms
              obtain ⟨bs, hmap, hbsum⟩ := hsum hms s hsc
              refine ⟨s, bs.reverse, hsc, ?_, ?_⟩
              · show (((x, L) :: ps).reverse).map _ = _
                rw [List.map_reverse, hmap, ← List.map_reverse]
              · show s * ((((x, L) :: ps).reverse).length : ℚ) = bs.reverse.sum
                rw [List.sum_reverse, List.length_reverse, hlenps, ← hbsum]
                push_cast
                ring
            · show (((x, L) :: ps).reverse).length ≤ m + 1
              rw [List.length_reverse, hlenps]
        · rw [List.pairwise_append]
          refine ⟨hpw, List.pairwise_singleton _ _, ?_⟩
          intro a ha b hb
          rw [List.mem_singleton] at hb
          subst hb
          show a.2.length < (((x, L) :: ps).reverse).length
          rw [List.length_reverse, hlenps]
          have := (hQ a ha).2
          omega
        · refine Or.inr ⟨_, List.mem_append_right _ (List.mem_singleton_self _), ?_, ?_⟩
          · exact List.getLast?_concat _
          · intro e he
            rcases List.mem_append.mp he with he | he
            · show e.2.length ≤ (((x, L) :: ps).reverse).length
              rw [List.length_reverse, hlenps]
              have := (hQ e he).2
              omega
            · rw [List.mem_singleton] at he
              subst he
              exact le_refl _

theorem foldl_resStepM_none (table : List (List CellM)) (spacer seqLen : ℕ) :
    ∀ l : List ℕ, l.foldl (resStepM table spacer seqLen) none = none := by
  intro l
  induction l with
  | nil => rfl
  | cons a l ih => rw [List.foldl_cons]; exact ih

/-- Master theorem for `find_best_probes_mixed`: every returned solution
satisfies `solPropM`, the solutions are listed in strictly increasing probe
count, and the selector picks a solution with the greatest probe count. -/
theorem find_best_probes_mixed_spec (bad2d : List (List Cost))
    (seqLen minLen maxLen spacer n : ℕ) (sols : List (Cost × List (ℕ × ℕ)))
    (h : find_best_probes_mixed bad2d seqLen minLen maxLen spacer n = some sols) :
    (∀ e ∈ sols, solPropM bad2d minLen spacer e) ∧
    List.Pairwise (fun a b => a.2.length < b.2.length) sols ∧
    (sols = [] ∨ ∃ b ∈ sols, select_solution sols = some b ∧
      ∀ e ∈ sols, e.2.length ≤ b.2.length) := by
  unfold find_best_probes_mixed at h
  rcases Nat.eq_zero_or_pos n with hn | hn
  · subst hn
    have hsols : sols = [] := by
      have : resultsM (tableM bad2d minLen (maxLen + 1 - minLen) spacer 0 seqLen)
          spacer seqLen 0 = some [] := rfl
      rw [this] at h
      simpa using h.symm
    subst hsols
    exact ⟨by simp, List.Pairwise.nil, Or.inl rfl⟩
  · rcases Nat.eq_zero_or_pos seqLen with hseq | hseq
    · subst hseq
      exfalso
      unfold resultsM at h
      have hrange : List.range n = 0 :: (List.range' 1 (n - 1)) := by
        cases n with
        | zero => omega
        | succ m =>
          rw [List.range_eq_range', List.range'_succ]
          simp
      rw [hrange, List.foldl_cons] at h
      have hstep : resStepM (tableM bad2d minLen (maxLen + 1 - minLen) spacer n 0)
          spacer 0 (some []) 0 = none := rfl
      rw [hstep, foldl_resStepM_none] at h
      exact absurd h (by simp)
    · obtain ⟨rs, hfold, hQ, hpw, hlast⟩ := resultsM_fold_inv bad2d minLen
        (maxLen + 1 - minLen) spacer n seqLen hseq n
      unfold resultsM at h
      rw [hfold] at h
      have hrs : rs = sols := by simpa using h
      subst hrs
      refine ⟨fun e he => (hQ e he).1, hpw, ?_⟩
      rcases hlast with hnil | ⟨b, hb, hlast', hmax⟩
      · exact Or.inl hnil
      · exact Or.inr ⟨b, hb, hlast', hmax⟩

/-! ## Helper lemmas for the claim statements -/

theorem costLe_refl (c : Cost) : costLe c c = true := by
  cases c with
  | none => rfl
  | some a => simp [costLe]

theorem costMean_of_sum {l : List Cost} {bs : List ℚ} {s : ℚ}
    (hmap : l = bs.map some) (hlen : l ≠ []) (hsum : s * (l.length : ℚ) = bs.sum) :
    costMean l = some s := by
  subst hmap
  unfold costMean
  rw [costSum_map_some]
  dsimp only
  have hlen' : (bs.length : ℚ) ≠ 0 := by
    have hbs : bs ≠ [] := by
      intro hbs
      subst hbs
      exact hlen rfl
    have : 0 < bs.length := List.length_pos.mpr hbs
    exact_mod_cast Nat.pos_iff_ne_zero.mp this
  rw [List.length_map] at hsum
  rw [List.length_map]
  congr 1
  exact ((eq_div_iff hlen').mpr hsum).symm

theorem map_eq_map_some_ne_none {α : Type _} {f : α → Cost} {l : List α} {bs : List ℚ}
    (hmap : l.map f = bs.map some) : ∀ a ∈ l, f a ≠ none := by
  intro a ha
  have hmem : f a ∈ l.map f := List.mem_map_of_mem f ha
  rw [hmap] at hmem
  obtain ⟨b, _, hb⟩ := List.mem_map.mp hmem
  rw [← hb]
  simp

theorem chain'_strict_of_spacing {mn sp : ℕ} (h1 : 1 ≤ mn + sp) :
    ∀ l : List (ℕ × ℕ), (∀ q ∈ l, mn ≤ q.2) →
    List.Chain' (fun a b => a.1 + a.2 + sp ≤ b.1) l →
    List.Chain' (fun a b => a.1 < b.1 ∧ a.1 + a.2 + sp ≤ b.1) l := by
  intro l
  induction l with
  | nil => intro _ _; exact List.chain'_nil
  | cons a l ih =>
    intro hmem hch
    cases l with
    | nil => exact List.chain'_singleton a
    | cons b l =>
      rw [List.chain'_cons] at hch ⊢
      obtain ⟨hab, hch'⟩ := hch
      refine ⟨⟨?_, hab⟩, ih (fun q hq => hmem q (List.mem_cons_of_mem a hq)) hch'⟩
      have := hmem a (List.mem_cons_self a _)
      omega

/-- Reading one entry of `calculate_badness`. -/
theorem calculate_badness_getD (gibbs : List Char → Except Unit ℚ) (seq : List Char)
    (oligo_len : ℕ) (t : ℚ) (r : ℚ × ℚ) {i : ℕ} (hi : i < seq.length + 1 - oligo_len)
    (d : Cost) :
    (calculate_badness gibbs seq oligo_len t r).getD i d =
      (if has_invalid_chars ((seq.drop i).take oligo_len) then none
       else
         match gibbs ((seq.drop i).take oligo_len) with
         | .error _ => none
         | .ok g =>
           if g < min r.1 r.2 ∨ max r.1 r.2 < g then none
           else some ((g - t) ^ 2)) := by
  unfold calculate_badness
  rw [getD_map_range _ hi]

/-- Reading one entry of `calculate_badness_mixed`. -/
theorem calculate_badness_mixed_getD (gibbs : List Char → Except Unit ℚ) (seq : List Char)
    (min_len max_len : ℕ) (t : ℚ) (r : ℚ × ℚ) {i Lidx : ℕ}
    (hi : i < seq.length + 1 - min_len) (hL : Lidx < max_len + 1 - min_len) (d : Cost) :
    ((calculate_badness_mixed gibbs seq min_len max_len t r).getD i []).getD Lidx d =
      (if seq.length < i + (min_len + Lidx) then none
       else if has_invalid_chars ((seq.drop i).take (min_len + Lidx)) then none
       else
         match gibbs ((seq.drop i).take (min_len + Lidx)) with
         | .error _ => none
         | .ok g =>
           if g < min r.1 r.2 ∨ max r.1 r.2 < g then none
           else some ((g - t) ^ 2)) := by
  unfold calculate_badness_mixed
  rw [getD_map_range _ hi, getD_map_range _ hL]

/-! ## The claims

The Batteries `Rat` arithmetic operations are `@[irreducible]`, which stops
`decide` from evaluating concrete runs of the embedded algorithms; they are
restored to `semireducible` for the scope of the claims (the kernel is
unaffected by reducibility attributes). -/

section Claims

unseal Rat.add Rat.mul Rat.inv Rat.sub

/-- Claim C1: worked example of the fixed-length DP.  With badness
`[5, 1, 2, 9, 2, 0, 3]`, `oligo_len = 3`, `spacer_len = 1` (gap 4) and
`n_probes = 2`, `find_best_probes` returns exactly the 1-probe solution
(score 0, positions `[5]`) and the 2-probe solution (score 0.5, positions
`[1, 5]`), and the selector (last element) picks the 2-probe solution.
(`seq_len`, here 9, is ignored by the function.) -/
theorem spec_C1_worked_example :
    find_best_probes [some 5, some 1, some 2, some 9, some 2, some 0, some 3] 9 3 1 2 =
      some [(some 0, [5]), (some ((1 : ℚ)/2), [1, 5])] ∧
    select_solution [((some 0 : Cost), [5]), (some ((1 : ℚ)/2), [1, 5])] =
      some (some ((1 : ℚ)/2), [1, 5]) := by
  constructor
  · decide
  · rfl

/-- Claim C2: greatest-count selection.  Both DPs return only solutions
whose score is strictly below 1,000,000, in strictly increasing probe-count
order, and on a non-empty list the selector of `design_probes` (the last
element) is a solution with the greatest probe count. -/
theorem spec_C2_greatest_count_selection :
    (∀ (bad : List Cost) (sl ol sp n : ℕ) (sols : List (Cost × List ℕ)),
      find_best_probes bad sl ol sp n = some sols →
      (∀ e ∈ sols, costLt e.1 (some 1000000) = true) ∧
      List.Pairwise (fun a b => a.2.length < b.2.length) sols ∧
      (sols ≠ [] → ∃ b ∈ sols, select_solution sols = some b ∧
        ∀ e ∈ sols, e.2.length ≤ b.2.length)) ∧
    (∀ (bad2d : List (List Cost)) (sl mn mx sp n : ℕ)
      (sols : List (Cost × List (ℕ × ℕ))),
      find_best_probes_mixed bad2d sl mn mx sp n = some sols →
      (∀ e ∈ sols, costLt e.1 (some 1000000) = true) ∧
      List.Pairwise (fun a b => a.2.length < b.2.length) sols ∧
      (sols ≠ [] → ∃ b ∈ sols, select_solution sols = some b ∧
        ∀ e ∈ sols, e.2.length ≤ b.2.length)) := by
  constructor
  · intro bad sl ol sp n sols h
    obtain ⟨hQ, hpw, hlast⟩ := find_best_probes_spec bad sl ol sp n sols h
    refine ⟨fun e he => (hQ e he).1, hpw, fun hne => ?_⟩
    rcases hlast with hnil | hsome
    · exact absurd hnil hne
    · exact hsome
  · intro bad2d sl mn mx sp n sols h
    obtain ⟨hQ, hpw, hlast⟩ := find_best_probes_mixed_spec bad2d sl mn mx sp n sols h
    refine ⟨fun e he => (hQ e he).1, hpw, fun hne => ?_⟩
    rcases hlast with hnil | hsome
    · exact absurd hnil hne
    · exact hsome

/-- Claim C3 (counterexample): with `min_len = 0` and `spacer_len = 0` the
mixed DP can return a score that is not the mean of its placements' badness
values: the slot-1 score 1 was computed against a same-row slot-0 cell that
a later candidate length improved, while backtracking follows the improved
cell, whose placements have mean badness 1/2. -/
theorem spec_C3_counterexample :
    find_best_probes_mixed [[none, some 0], [some 1, none]] 1 0 1 0 2 =
      some [(some 0, [(0, 1)]), (some 1, [(0, 1), (1, 0)])] ∧
    costMean (([(0, 1), (1, 0)] : List (ℕ × ℕ)).map (fun q =>
      (([[none, some 0], [some 1, none]] : List (List Cost)).getD q.1 []).getD
        (q.2 - 0) none)) = some ((1 : ℚ)/2) ∧
    (some (1 : ℚ) : Cost) ≠ some ((1 : ℚ)/2) := by
  refine ⟨by decide, by decide, by decide⟩

/-- Claim C3 (amended): every solution returned by `find_best_probes`
scores the arithmetic mean of the badness values of its placements; the
same holds for `find_best_probes_mixed` under the validity assumption
`min_len + spacer_len ≥ 1` (zero-length probes with no spacer — a
degenerate configuration §7 excludes — are the only way to break it). -/
theorem spec_C3_mean_invariant :
    (∀ (bad : List Cost) (sl ol sp n : ℕ) (sols : List (Cost × List ℕ)),
      find_best_probes bad sl ol sp n = some sols →
      ∀ e ∈ sols, e.1 = costMean (e.2.map (fun q => bad.getD q none))) ∧
    (∀ (bad2d : List (List Cost)) (sl mn mx sp n : ℕ)
      (sols : List (Cost × List (ℕ × ℕ))),
      1 ≤ mn + sp →
      find_best_probes_mixed bad2d sl mn mx sp n = some sols →
      ∀ e ∈ sols, e.1 = costMean (e.2.map (fun q =>
        (bad2d.getD q.1 []).getD (q.2 - mn) none))) := by
  constructor
  · intro bad sl ol sp n sols h e he
    obtain ⟨hQ, _, _⟩ := find_best_probes_spec bad sl ol sp n sols h
    obtain ⟨_, hne, _, s, bs, hs, hmap, hsum⟩ := hQ e he
    rw [hs]
    symm
    refine costMean_of_sum hmap (by simpa using hne) ?_
    rw [List.length_map]
    exact hsum
  · intro bad2d sl mn mx sp n sols hms h e he
    obtain ⟨hQ, _, _⟩ := find_best_probes_mixed_spec bad2d sl mn mx sp n sols h
    obtain ⟨_, hne, _, _, hmean⟩ := hQ e he
    obtain ⟨s, bs, hs, hmap, hsum⟩ := hmean hms
    rw [hs]
    symm
    refine costMean_of_sum hmap (by simpa using hne) ?_
    rw [List.length_map]
    exact hsum

/-- Claim C4 (counterexample): with `oligo_len = spacer_len = 0` (gap 0) the
fixed DP can place the same position twice, so the returned positions are
not strictly increasing. -/
theorem spec_C4_counterexample :
    find_best_probes [none, some 0] 2 0 0 2 =
      some [(some 0, [1]), (some 0, [1, 1])] ∧
    ¬ List.Chain' (fun a b : ℕ => a < b) [1, 1] := by
  refine ⟨by decide, by simp [List.chain'_cons]⟩

/-- Claim C4 (amended): under the validity assumption
`oligo_len + spacer_len ≥ 1` (probe windows occupy at least one position),
every solution returned by `find_best_probes` has strictly increasing
positions with consecutive starts at least `oligo_len + spacer_len`
apart. -/
theorem spec_C4_monotone_spacing_fixed :
    ∀ (bad : List Cost) (sl ol sp n : ℕ) (sols : List (Cost × List ℕ)),
      1 ≤ ol + sp →
      find_best_probes bad sl ol sp n = some sols →
      ∀ e ∈ sols, List.Chain' (fun a b => a < b ∧ a + (ol + sp) ≤ b) e.2 := by
  intro bad sl ol sp n sols hgap h e he
  obtain ⟨hQ, _, _⟩ := find_best_probes_spec bad sl ol sp n sols h
  obtain ⟨_, _, hchain, _⟩ := hQ e he
  exact hchain.imp (fun a b hab => ⟨by omega, hab⟩)

/-- Claim C5 (counterexample): with `min_len = 0` and `spacer_len = 0` the
mixed DP can place the same zero-length window twice, so the returned
placements are not in strictly increasing position order. -/
theorem spec_C5_counterexample :
    find_best_probes_mixed [[some 0], [some 0]] 1 0 0 0 2 =
      some [(some 0, [(1, 0)]), (some 0, [(1, 0), (1, 0)])] ∧
    ¬ List.Chain' (fun a b : ℕ × ℕ => a.1 < b.1) [(1, 0), (1, 0)] := by
  refine ⟨by decide, by simp [List.chain'_cons]⟩

/-- Claim C5 (amended): under the validity assumption
`min_len + spacer_len ≥ 1`, every solution returned by
`find_best_probes_mixed` has placements in strictly increasing position
order with `nextStart - (prevStart + prevLength) ≥ spacer_len`. -/
theorem spec_C5_monotone_spacing_mixed :
    ∀ (bad2d : List (List Cost)) (sl mn mx sp n : ℕ)
      (sols : List (Cost × List (ℕ × ℕ))),
      1 ≤ mn + sp →
      find_best_probes_mixed bad2d sl mn mx sp n = some sols →
      ∀ e ∈ sols, List.Chain' (fun a b => a.1 < b.1 ∧ a.1 + a.2 + sp ≤ b.1) e.2 := by
  intro bad2d sl mn mx sp n sols hms h e he
  obtain ⟨hQ, _, _⟩ := find_best_probes_mixed_spec bad2d sl mn mx sp n sols h
  obtain ⟨_, _, hchain, hmem, _⟩ := hQ e he
  exact chain'_strict_of_spacing hms e.2 (fun q hq => (hmem q hq).1) hchain

/-- Claim C6: on an empty badness table (any sequence shorter than
`oligo_length`, e.g. a 3-nt sequence with the default `oligo_length = 20`,
`spacer_length = 2`, `n_probes = 48`), `find_best_probes` executes
`bmsf_pos[0][0] = 0` on an empty table and raises an IndexError (embedded
as `none`) instead of returning the empty result the spec promises. -/
theorem spec_C6_degenerate_crash :
    find_best_probes [] 3 20 2 48 = none := by
  decide

/-- Claim C7: badness formula with canonicalized range.  `calculate_badness`
gives the same result for `(a, b)` and `(b, a)`; a valid window whose oracle
value `G` lies inside the closed canonical range costs `(G - target)²`,
outside it costs `+∞`; with target `-23` and range `(-26, -20)`, `G = -24`
costs `1` and `G = -18` costs `+∞` (shown on a one-window sequence with a
scripted oracle). -/
theorem spec_C7_badness_formula :
    (∀ (gibbs : List Char → Except Unit ℚ) (seq : List Char) (ol : ℕ) (t a b : ℚ),
      calculate_badness gibbs seq ol t (a, b) = calculate_badness gibbs seq ol t (b, a)) ∧
    (∀ (gibbs : List Char → Except Unit ℚ) (seq : List Char) (ol : ℕ) (t : ℚ)
      (r : ℚ × ℚ) (i : ℕ) (G : ℚ), i < seq.length + 1 - ol →
      has_invalid_chars ((seq.drop i).take ol) = false →
      gibbs ((seq.drop i).take ol) = .ok G →
      (calculate_badness gibbs seq ol t r).getD i (some 0) =
        (if min r.1 r.2 ≤ G ∧ G ≤ max r.1 r.2 then some ((G - t) ^ 2) else none)) ∧
    calculate_badness (fun _ => .ok (-24)) ['a', 'a', 'a'] 3 (-23) (-26, -20) =
      [some 1] ∧
    calculate_badness (fun _ => .ok (-18)) ['a', 'a', 'a'] 3 (-23) (-26, -20) =
      [none] := by
  refine ⟨?_, ?_, by decide, by decide⟩
  · intro g seq ol t a b
    unfold calculate_badness
    dsimp only
    rw [min_comm b a, max_comm b a]
  · intro g seq ol t r i G hi hchars hok
    rw [calculate_badness_getD g seq ol t r hi]
    rw [if_neg (by simp [hchars]), hok]
    dsimp only
    by_cases hin : min r.1 r.2 ≤ G ∧ G ≤ max r.1 r.2
    · rw [if_pos hin, if_neg (by push_neg; exact ⟨hin.1, hin.2⟩)]
    · rw [if_neg hin, if_pos ?_]
      rcases not_and_or.mp hin with h | h
      · exact Or.inl (not_le.mp h)
      · exact Or.inr (not_le.mp h)

/-- Claim C8: an oracle failure (a `KeyError` on an unsupported adjacent
pair, embedded as `.error ()`) on a window makes `calculate_badness` and
`calculate_badness_mixed` record `+∞` for that window; both embeddings are
total functions, so the failure never propagates to the caller. -/
theorem spec_C8_oracle_failure :
    (∀ (gibbs : List Char → Except Unit ℚ) (seq : List Char) (ol : ℕ) (t : ℚ)
      (r : ℚ × ℚ) (i : ℕ), i < seq.length + 1 - ol →
      gibbs ((seq.drop i).take ol) = .error () →
      (calculate_badness gibbs seq ol t r).getD i (some 0) = none) ∧
    (∀ (gibbs : List Char → Except Unit ℚ) (seq : List Char) (mn mx : ℕ) (t : ℚ)
      (r : ℚ × ℚ) (i Lidx : ℕ), i < seq.length + 1 - mn → Lidx < mx + 1 - mn →
      gibbs ((seq.drop i).take (mn + Lidx)) = .error () →
      ((calculate_badness_mixed gibbs seq mn mx t r).getD i []).getD Lidx (some 0) =
        none) := by
  constructor
  · intro g seq ol t r i hi herr
    rw [calculate_badness_getD g seq ol t r hi]
    by_cases hchars : has_invalid_chars ((seq.drop i).take ol) = true
    · rw [if_pos hchars]
    · rw [if_neg hchars, herr]
  · intro g seq mn mx t r i Lidx hi hL herr
    rw [calculate_badness_mixed_getD g seq mn mx t r hi hL]
    by_cases hpast : seq.length < i + (mn + Lidx)
    · rw [if_pos hpast]
    · rw [if_neg hpast]
      by_cases hchars : has_invalid_chars ((seq.drop i).take (mn + Lidx)) = true
      · rw [if_pos hchars]
      · rw [if_neg hchars, herr]

/-- Claim C9: the mask-application pass of `design_probes` (fixed and
mixed) maps every entry either to itself or to `+∞`, and never lowers a
cost (pointwise, the table after is `≥` the table before). -/
theorem spec_C9_mask_monotone :
    (∀ (badness mask_badness : List Cost) (i : ℕ), i < badness.length →
      ((apply_mask_badness badness mask_badness).getD i none = badness.getD i none ∨
       (apply_mask_badness badness mask_badness).getD i none = none) ∧
      costLe (badness.getD i none)
        ((apply_mask_badness badness mask_badness).getD i none) = true) ∧
    (∀ (bad2d mask2d : List (List Cost)) (nL i j : ℕ), i < bad2d.length →
      j < (bad2d.getD i []).length →
      (((apply_mask_badness_mixed bad2d mask2d nL).getD i []).getD j none =
         (bad2d.getD i []).getD j none ∨
       ((apply_mask_badness_mixed bad2d mask2d nL).getD i []).getD j none = none) ∧
      costLe ((bad2d.getD i []).getD j none)
        (((apply_mask_badness_mixed bad2d mask2d nL).getD i []).getD j none) = true) := by
  constructor
  · intro badness mask_badness i hi
    unfold apply_mask_badness
    rw [getD_map_range _ hi]
    by_cases hm : mask_badness.getD i (some 0) = none
    · rw [if_pos hm]
      refine ⟨Or.inr rfl, ?_⟩
      cases badness.getD i none <;> rfl
    · rw [if_neg hm]
      exact ⟨Or.inl rfl, costLe_refl _⟩
  · intro bad2d mask2d nL i j hi hj
    unfold apply_mask_badness_mixed
    rw [getD_map_range _ hi, getD_map_range _ hj]
    by_cases hm : j < nL ∧ i < mask2d.length ∧ (mask2d.getD i []).getD j (some 0) = none
    · rw [if_pos hm]
      refine ⟨Or.inr rfl, ?_⟩
      cases (bad2d.getD i []).getD j none <;> rfl
    · rw [if_neg hm]
      exact ⟨Or.inl rfl, costLe_refl _⟩

/-- Claim C10: no disqualified window is ever selected.  Every solution
either DP returns has a finite score strictly below 1,000,000, and every
placement indexes a finite entry of the cost table — even though the fixed
DP unconditionally installs a backpointer at position 0 (the threshold
filter discards that slot when `badness[0]` is infinite). -/
theorem spec_C10_no_disqualified :
    (∀ (bad : List Cost) (sl ol sp n : ℕ) (sols : List (Cost × List ℕ)),
      find_best_probes bad sl ol sp n = some sols →
      ∀ e ∈ sols, costLt e.1 (some 1000000) = true ∧ e.1 ≠ none ∧
        ∀ p ∈ e.2, bad.getD p none ≠ none) ∧
    (∀ (bad2d : List (List Cost)) (sl mn mx sp n : ℕ)
      (sols : List (Cost × List (ℕ × ℕ))),
      find_best_probes_mixed bad2d sl mn mx sp n = some sols →
      ∀ e ∈ sols, costLt e.1 (some 1000000) = true ∧ e.1 ≠ none ∧
        ∀ q ∈ e.2, (bad2d.getD q.1 []).getD (q.2 - mn) none ≠ none) := by
  constructor
  · intro bad sl ol sp n sols h e he
    obtain ⟨hQ, _, _⟩ := find_best_probes_spec bad sl ol sp n sols h
    obtain ⟨hlt, _, _, s, bs, hs, hmap, _⟩ := hQ e he
    exact ⟨hlt, by rw [hs]; simp, map_eq_map_some_ne_none hmap⟩
  · intro bad2d sl mn mx sp n sols h e he
    obtain ⟨hQ, _, _⟩ := find_best_probes_mixed_spec bad2d sl mn mx sp n sols h
    obtain ⟨hlt, _, _, hmem, _⟩ := hQ e he
    obtain ⟨q, hq⟩ := costLt_some_of_true hlt
    exact ⟨hlt, by rw [hq]; simp, fun p hp => (hmem p hp).2⟩


/-- Witness for C2 at concrete runs of both DPs. -/
theorem spec_C2_witness :
    (find_best_probes [some 5, some 1, some 2, some 9, some 2, some 0, some 3] 9 3 1 2 =
      some [(some 0, [5]), (some ((1 : ℚ)/2), [1, 5])]) ∧
    (([((some 0 : Cost), [5]), (some ((1 : ℚ)/2), [1, 5])] : List (Cost × List ℕ)) ≠ [] →
      ∃ b ∈ [((some 0 : Cost), [5]), (some ((1 : ℚ)/2), [1, 5])],
        select_solution [((some 0 : Cost), [5]), (some ((1 : ℚ)/2), [1, 5])] = some b ∧
        ∀ e ∈ [((some 0 : Cost), [5]), (some ((1 : ℚ)/2), [1, 5])],
          e.2.length ≤ b.2.length) ∧
    (find_best_probes_mixed [[some 1], [some 2], [some 3], [some 4]] 5 2 2 1 2 =
      some [(some 1, [(0, 2)]), (some ((5 : ℚ)/2), [(0, 2), (3, 2)])]) ∧
    (([((some 1 : Cost), [(0, 2)]), (some ((5 : ℚ)/2), [(0, 2), (3, 2)])] :
        List (Cost × List (ℕ × ℕ))) ≠ [] →
      ∃ b ∈ [((some 1 : Cost), [(0, 2)]), (some ((5 : ℚ)/2), [(0, 2), (3, 2)])],
        select_solution [((some 1 : Cost), [(0, 2)]), (some ((5 : ℚ)/2), [(0, 2), (3, 2)])] =
          some b ∧
        ∀ e ∈ [((some 1 : Cost), [(0, 2)]), (some ((5 : ℚ)/2), [(0, 2), (3, 2)])],
          e.2.length ≤ b.2.length) :=
  ⟨by decide,
   (spec_C2_greatest_count_selection.1 [some 5, some 1, some 2, some 9, some 2, some 0, some 3] 9 3 1 2 [(some 0, [5]), (some ((1 : ℚ)/2), [1, 5])] (by decide)).2.2,
   by decide,
   (spec_C2_greatest_count_selection.2 [[some 1], [some 2], [some 3], [some 4]] 5 2 2 1 2 [(some 1, [(0, 2)]), (some ((5 : ℚ)/2), [(0, 2), (3, 2)])] (by decide)).2.2⟩

/-- Witness for the amended C3 at concrete runs of both DPs. -/
theorem spec_C3_witness :
    (find_best_probes [some 5, some 1, some 2, some 9, some 2, some 0, some 3] 9 3 1 2 =
      some [(some 0, [5]), (some ((1 : ℚ)/2), [1, 5])]) ∧
    (∀ e ∈ [((some 0 : Cost), [5]), (some ((1 : ℚ)/2), [1, 5])],
      e.1 = costMean (e.2.map (fun q =>
        ([some 5, some 1, some 2, some 9, some 2, some 0, some 3] : List Cost).getD q
          none))) ∧
    (1 ≤ 2 + 1) ∧
    (find_best_probes_mixed [[some 1], [some 2], [some 3], [some 4]] 5 2 2 1 2 =
      some [(some 1, [(0, 2)]), (some ((5 : ℚ)/2), [(0, 2), (3, 2)])]) ∧
    (∀ e ∈ [((some 1 : Cost), [(0, 2)]), (some ((5 : ℚ)/2), [(0, 2), (3, 2)])],
      e.1 = costMean (e.2.map (fun q : ℕ × ℕ =>
        (([[some 1], [some 2], [some 3], [some 4]] : List (List Cost)).getD q.1 []).getD
          (q.2 - 2) none))) :=
  ⟨by decide,
   spec_C3_mean_invariant.1 [some 5, some 1, some 2, some 9, some 2, some 0, some 3] 9 3 1 2 [(some 0, [5]), (some ((1 : ℚ)/2), [1, 5])] (by decide),
   by decide,
   by decide,
   spec_C3_mean_invariant.2 [[some 1], [some 2], [some 3], [some 4]] 5 2 2 1 2 [(some 1, [(0, 2)]), (some ((5 : ℚ)/2), [(0, 2), (3, 2)])] (by decide) (by decide)⟩

/-- Witness for the amended C4 at a concrete run of the fixed DP. -/
theorem spec_C4_witness :
    (1 ≤ 3 + 1) ∧
    (find_best_probes [some 5, some 1, some 2, some 9, some 2, some 0, some 3] 9 3 1 2 =
      some [(some 0, [5]), (some ((1 : ℚ)/2), [1, 5])]) ∧
    (∀ e ∈ [((some 0 : Cost), [5]), (some ((1 : ℚ)/2), [1, 5])],
      List.Chain' (fun a b => a < b ∧ a + (3 + 1) ≤ b) e.2) :=
  ⟨by decide, by decide,
   spec_C4_monotone_spacing_fixed [some 5, some 1, some 2, some 9, some 2, some 0, some 3] 9 3 1 2 [(some 0, [5]), (some ((1 : ℚ)/2), [1, 5])] (by decide) (by decide)⟩

/-- Witness for the amended C5 at a concrete run of the mixed DP. -/
theorem spec_C5_witness :
    (1 ≤ 2 + 1) ∧
    (find_best_probes_mixed [[some 1], [some 2], [some 3], [some 4]] 5 2 2 1 2 =
      some [(some 1, [(0, 2)]), (some ((5 : ℚ)/2), [(0, 2), (3, 2)])]) ∧
    (∀ e ∈ [((some 1 : Cost), [(0, 2)]), (some ((5 : ℚ)/2), [(0, 2), (3, 2)])],
      List.Chain' (fun a b : ℕ × ℕ => a.1 < b.1 ∧ a.1 + a.2 + 1 ≤ b.1) e.2) :=
  ⟨by decide, by decide,
   spec_C5_monotone_spacing_mixed [[some 1], [some 2], [some 3], [some 4]] 5 2 2 1 2 [(some 1, [(0, 2)]), (some ((5 : ℚ)/2), [(0, 2), (3, 2)])] (by decide) (by decide)⟩

/-- Witness for C7: canonicalization and the formula at a one-window
sequence with a scripted oracle. -/
theorem spec_C7_witness :
    (calculate_badness (fun _ => .ok (-24)) ['a', 'a', 'a'] 3 (-23) (-26, -20) =
      calculate_badness (fun _ => .ok (-24)) ['a', 'a', 'a'] 3 (-23) (-20, -26)) ∧
    ((calculate_badness (fun _ => .ok (-24)) ['a', 'a', 'a'] 3 (-23)
        (-26, -20)).getD 0 (some 0) =
      (if min (-26 : ℚ) (-20) ≤ -24 ∧ (-24 : ℚ) ≤ max (-26 : ℚ) (-20)
       then some (((-24 : ℚ) - (-23)) ^ 2) else none)) :=
  ⟨spec_C7_badness_formula.1 (fun _ => .ok (-24)) ['a', 'a', 'a'] 3 (-23) (-26) (-20),
   spec_C7_badness_formula.2.1 (fun _ => .ok (-24)) ['a', 'a', 'a'] 3 (-23) (-26, -20)
     0 (-24) (by decide) (by decide) rfl⟩

/-- Witness for C8 with an always-failing oracle. -/
theorem spec_C8_witness :
    ((calculate_badness (fun _ => .error ()) ['a', 'a', 'a'] 3 0 (0, 0)).getD 0
      (some 0) = none) ∧
    (((calculate_badness_mixed (fun _ => .error ()) ['a', 'a', 'a'] 2 3 0 (0, 0)).getD 0
      []).getD 1 (some 0) = none) :=
  ⟨spec_C8_oracle_failure.1 (fun _ => .error ()) ['a', 'a', 'a'] 3 0 (0, 0) 0
     (by decide) rfl,
   spec_C8_oracle_failure.2 (fun _ => .error ()) ['a', 'a', 'a'] 2 3 0 (0, 0) 0 1
     (by decide) (by decide) rfl⟩

/-- Witness for C9 at concrete tables. -/
theorem spec_C9_witness :
    (((apply_mask_badness [some 1, some 2] [some 0, none]).getD 1 none =
        ([some 1, some 2] : List Cost).getD 1 none ∨
      (apply_mask_badness [some 1, some 2] [some 0, none]).getD 1 none = none) ∧
     costLe (([some 1, some 2] : List Cost).getD 1 none)
       ((apply_mask_badness [some 1, some 2] [some 0, none]).getD 1 none) = true) ∧
    ((((apply_mask_badness_mixed [[some 1, some 2]] [[none, some 0]] 2).getD 0 []).getD 0
        none =
        (([[some 1, some 2]] : List (List Cost)).getD 0 []).getD 0 none ∨
      ((apply_mask_badness_mixed [[some 1, some 2]] [[none, some 0]] 2).getD 0 []).getD 0
        none = none) ∧
     costLe ((([[some 1, some 2]] : List (List Cost)).getD 0 []).getD 0 none)
       (((apply_mask_badness_mixed [[some 1, some 2]] [[none, some 0]] 2).getD 0
         []).getD 0 none) = true) :=
  ⟨spec_C9_mask_monotone.1 [some 1, some 2] [some 0, none] 1 (by decide),
   spec_C9_mask_monotone.2 [[some 1, some 2]] [[none, some 0]] 2 0 0 (by decide)
     (by decide)⟩

/-- Witness for C10 at concrete runs of both DPs. -/
theorem spec_C10_witness :
    (find_best_probes [some 5, some 1, some 2, some 9, some 2, some 0, some 3] 9 3 1 2 =
      some [(some 0, [5]), (some ((1 : ℚ)/2), [1, 5])]) ∧
    (∀ e ∈ [((some 0 : Cost), [5]), (some ((1 : ℚ)/2), [1, 5])],
      costLt e.1 (some 1000000) = true ∧ e.1 ≠ none ∧
      ∀ p ∈ e.2,
        ([some 5, some 1, some 2, some 9, some 2, some 0, some 3] : List Cost).getD p
          none ≠ none) ∧
    (find_best_probes_mixed [[some 1], [some 2], [some 3], [some 4]] 5 2 2 1 2 =
      some [(some 1, [(0, 2)]), (some ((5 : ℚ)/2), [(0, 2), (3, 2)])]) ∧
    (∀ e ∈ [((some 1 : Cost), [(0, 2)]), (some ((5 : ℚ)/2), [(0, 2), (3, 2)])],
      costLt e.1 (some 1000000) = true ∧ e.1 ≠ none ∧
      ∀ q ∈ e.2,
        (([[some 1], [some 2], [some 3], [some 4]] : List (List Cost)).getD q.1 []).getD
          (q.2 - 2) none ≠ none) :=
  ⟨by decide,
   spec_C10_no_disqualified.1 [some 5, some 1, some 2, some 9, some 2, some 0, some 3] 9 3 1 2 [(some 0, [5]), (some ((1 : ℚ)/2), [1, 5])] (by decide),
   by decide,
   spec_C10_no_disqualified.2 [[some 1], [some 2], [some 3], [some 4]] 5 2 2 1 2 [(some 1, [(0, 2)]), (some ((5 : ℚ)/2), [(0, 2), (3, 2)])] (by decide)⟩

end Claims
